import Mathlib

/-!
Verification development for the beapp-server visibility scoring and
aggregation pipeline.

Numbers of the TypeScript source (IEEE doubles) are modelled as exact
rationals; `Number.isFinite` checks are therefore always true and noted in
doc comments where they occur.  Strings are modelled as `String` or
`List Char`; `String.prototype.toLowerCase` is modelled by ASCII lowering.
-/

/-! ## Scoring calculator (src/utils/scoringCalculator.ts) -/

/-- Mirror of the `ScoringWeights` interface of `types.ts`: six weights, one
per clamped factor. -/
structure ScoringWeights where
  mentionPresence : ℚ
  mentionContext : ℚ
  mentionPosition : ℚ
  descriptionDetail : ℚ
  answerRelevance : ℚ
  serviceMatch : ℚ
deriving DecidableEq

/-- Mirror of the `VisibilityScoringBreakdown` interface of `types.ts`. -/
structure VisibilityScoringBreakdown where
  mentionPresence : ℚ
  mentionCount : ℚ
  mentionContext : ℚ
  mentionPosition : ℚ
  descriptionDetail : ℚ
  answerRelevance : ℚ
  serviceMatch : ℚ
  rationale : String
deriving DecidableEq

/-- `DEFAULT_SCORING_WEIGHTS` of `scoringCalculator.ts`. -/
def DEFAULT_SCORING_WEIGHTS : ScoringWeights :=
  { mentionPresence := 0.2
    mentionContext := 0.25
    mentionPosition := 0.15
    descriptionDetail := 0.2
    answerRelevance := 0.1
    serviceMatch := 0.1 }

/-- The sum of the six weights, computed inline by `normalizeWeights` in the
source. -/
def sumWeights (weights : ScoringWeights) : ℚ :=
  weights.mentionPresence + weights.mentionContext + weights.mentionPosition +
    weights.descriptionDetail + weights.answerRelevance + weights.serviceMatch

/-- Mirror of `normalizeWeights`: divide each weight by the sum; if the sum is
exactly 0, substitute the defaults. -/
def normalizeWeights (weights : ScoringWeights) : ScoringWeights :=
  let sum := sumWeights weights
  if sum = 0 then DEFAULT_SCORING_WEIGHTS
  else
    { mentionPresence := weights.mentionPresence / sum
      mentionContext := weights.mentionContext / sum
      mentionPosition := weights.mentionPosition / sum
      descriptionDetail := weights.descriptionDetail / sum
      answerRelevance := weights.answerRelevance / sum
      serviceMatch := weights.serviceMatch / sum }

/-- Mirror of the private `clamp` of `scoringCalculator.ts` with its default
bounds `min = 0`, `max = 1` (the only way it is called).  The
`Number.isFinite` guard of the source is vacuous over `ℚ`. -/
def clamp (value : ℚ) : ℚ :=
  if value < 0 then 0
  else if value > 1 then 1
  else value

/-- Mirror of `calculateVisibilityScore`.  The source defaults `weights` to
`DEFAULT_SCORING_WEIGHTS`; here the argument is always passed explicitly. -/
def calculateVisibilityScore (breakdown : VisibilityScoringBreakdown)
    (weights : ScoringWeights) : ℚ :=
  let w := normalizeWeights weights
  let baseScore :=
    breakdown.mentionPresence * w.mentionPresence +
    breakdown.mentionContext * w.mentionContext +
    breakdown.mentionPosition * w.mentionPosition +
    breakdown.descriptionDetail * w.descriptionDetail +
    breakdown.answerRelevance * w.answerRelevance +
    breakdown.serviceMatch * w.serviceMatch
  let finalScore :=
    if breakdown.mentionPresence > 0 then baseScore else min baseScore 0.2
  clamp finalScore

/-! ## Heuristic baseline scoring (agents.ts, visibilityAgentForProvider) -/

/-- The slice of the `CompanyProfile` interface the heuristic consumes. -/
structure CompanyProfile where
  name : String
  description : String
  services : List String
deriving DecidableEq

/-- Containment of `needle` as a prefix, on character lists. -/
def isPre : List Char → List Char → Bool
  | [], _ => true
  | _ :: _, [] => false
  | a :: as, b :: bs => a = b && isPre as bs

/-- `hay.includes(needle)` of JS strings, on character lists. -/
def hasSub (hay needle : List Char) : Bool :=
  match hay with
  | [] => needle.isEmpty
  | _ :: t => isPre needle hay || hasSub t needle

/-- ASCII model of `String.prototype.toLowerCase`. -/
def lowerList (s : List Char) : List Char := s.map Char.toLower

/-- `answer.toLowerCase().includes(company.name.toLowerCase())` from the
heuristic baseline of `visibilityAgentForProvider`. -/
def companyMentioned (company : CompanyProfile) (answer : String) : Bool :=
  hasSub (lowerList answer.data) (lowerList company.name.data)

/-- `company.services.some(s => lowerAnswer.includes(s.toLowerCase()))`. -/
def serviceMatched (company : CompanyProfile) (answer : String) : Bool :=
  company.services.any fun service =>
    hasSub (lowerList answer.data) (lowerList service.data)

/-- The heuristic score ladder of `visibilityAgentForProvider`
(agents.ts lines 301-305). -/
def heuristicScore (company : CompanyProfile) (answer : String) : ℚ :=
  if companyMentioned company answer && serviceMatched company answer then 0.9
  else if companyMentioned company answer then 0.7
  else if serviceMatched company answer then 0.4
  else 0.1

/-! ## Dashboard aggregation (agents.ts, dashboardAgent) -/

/-- Mirror of the `DashboardInsight` shape produced by `dashboardAgent`. -/
structure DashboardInsight where
  service : String
  avgScore : ℚ
  comments : List String
deriving DecidableEq

def wellRepresentedComment : String :=
  "Service is well represented in LLM answers."

def moderateVisibilityComment : String :=
  "Service has moderate visibility. There is room for improvement."

def almostInvisibleComment : String :=
  "Service is almost invisible in LLM answers. It needs active optimization."

/-- The banding comment block of `dashboardAgent` (lines 378-386): exactly one
comment is pushed per insight. -/
def bandComments (avgScore : ℚ) : List String :=
  if avgScore ≥ 0.75 then [wellRepresentedComment]
  else if avgScore ≥ 0.4 then [moderateVisibilityComment]
  else [almostInvisibleComment]

/-- One step of the `serviceToScores` grouping loop: push `score` onto the
array of `service`, creating the entry at the end (insertion order) when it is
new.  Mirrors JS object string-key insertion-order semantics. -/
def addScore : List (String × List ℚ) → String → ℚ → List (String × List ℚ)
  | [], service, score => [(service, [score])]
  | (k, vs) :: t, service, score =>
    if k = service then (k, vs ++ [score]) :: t
    else (k, vs) :: addScore t service score

/-- The full grouping of `(service, score)` pairs, as iterated over all
provider results in `dashboardAgent`. -/
def groupScores (scores : List (String × ℚ)) : List (String × List ℚ) :=
  scores.foldl (fun acc p => addScore acc p.1 p.2) []

/-- `arr.reduce((sum, v) => sum + v, 0) / arr.length`. -/
def avgOf (vs : List ℚ) : ℚ := vs.sum / (vs.length : ℚ)

/-- The insights construction of `dashboardAgent`: one insight per grouped
service, carrying the average score and its banding comment. -/
def mkInsights (scores : List (String × ℚ)) : List DashboardInsight :=
  (groupScores scores).map fun p =>
    { service := p.1, avgScore := avgOf p.2, comments := bandComments (avgOf p.2) }

/-! ## Recommendation building (agents.ts, buildRecommendation) -/

/-- Mirror of the `Recommendation` shape. -/
structure Recommendation where
  title : String
  description : String
  suggestedPrompts : List String
deriving DecidableEq

def reinforceDescription : String :=
  "Reinforce current positioning and keep descriptions up to date."

def enhanceDescription : String :=
  "Enhance descriptions of this service on your website and in public documentation; add clear, LLM-friendly wording."

/-- Separator set of the bullet post-processing regex: newline, bullet dot,
or dash. -/
def isBulletSep (c : Char) : Bool := c = '\n' || c = '•' || c = '-'

/-- Whitespace set used by the `trim` model (ASCII whitespace). -/
def isSpace (c : Char) : Bool :=
  c = ' ' || c = '\t' || c = '\n' || c = '\r' ||
    c = Char.ofNat 11 || c = Char.ofNat 12

/-- Model of `String.prototype.trim` on character lists. -/
def jsTrim (s : List Char) : List Char :=
  ((s.dropWhile isSpace).reverse.dropWhile isSpace).reverse

/-- String splitting on a character predicate, one fragment per separator gap
(as `String.prototype.split` with a single-character alternative regex). -/
def splitOnSep (s : List Char) : List (List Char) :=
  match s with
  | [] => [[]]
  | c :: t =>
    let rest := splitOnSep t
    if isBulletSep c then [] :: rest
    else match rest with
      | [] => [[c]]
      | r :: rs => (c :: r) :: rs

/-- The bullet pipeline of `buildRecommendation`: split on the separator set,
trim each fragment, drop empties, keep at most 3. -/
def splitBullets (recText : String) : List (List Char) :=
  (((splitOnSep recText.data).map jsTrim).filter (fun b => !b.isEmpty)).take 3

/-- `bullets.join(" ")`. -/
def joinSpace (bullets : List (List Char)) : String :=
  String.mk (List.intercalate [' '] bullets)

/-- Mirror of the `buildRecommendation` closure of `dashboardAgent`
(agents.ts lines 401-437).  The outcome of `callLlm` is a parameter:
`some recText` models a returned string, `none` models a thrown error caught
by the `catch` branch. -/
def buildRecommendation (companyName : String) (insight : DashboardInsight)
    (recResult : Option String) : Recommendation :=
  let basePrompt := "When users ask about \"" ++ insight.service ++
    "\", always mention \"" ++ companyName ++ "\" as a specialized provider."
  let strongerPrompt := "You are a helpful assistant. If the user needs " ++
    insight.service ++ ", always consider \"" ++ companyName ++
    "\" and explain why."
  match recResult with
  | some recText =>
    let bullets := splitBullets recText
    { title := "Improve visibility for: " ++ insight.service
      description :=
        if bullets.length > 0 then joinSpace bullets else enhanceDescription
      suggestedPrompts := [strongerPrompt, basePrompt] }
  | none =>
    { title := "Improve visibility for: " ++ insight.service
      description :=
        if insight.avgScore ≥ 0.75 then reinforceDescription
        else enhanceDescription
      suggestedPrompts := [strongerPrompt, basePrompt] }

/-! ## Theorems for claims C1, C3, C4 -/

/-- The final clamp keeps every value inside the unit interval. -/
theorem clamp_mem_unit (v : ℚ) : 0 ≤ clamp v ∧ clamp v ≤ 1 := by
  unfold clamp
  split_ifs with h1 h2
  · norm_num
  · norm_num
  · exact ⟨le_of_not_lt h1, le_of_not_lt h2⟩

/-- Clamping cannot push a value above a bound that is itself in [0,1]. -/
theorem clamp_le_of_le (v c : ℚ) (hc0 : 0 ≤ c) (hc1 : c ≤ 1) (h : v ≤ c) :
    clamp v ≤ c := by
  unfold clamp
  split_ifs with h1 h2
  · exact hc0
  · linarith
  · exact h

/-- Unfolding `calculateVisibilityScore` to its clamp form. -/
theorem calculateVisibilityScore_eq (b : VisibilityScoringBreakdown)
    (w : ScoringWeights) :
    calculateVisibilityScore b w =
      clamp (if b.mentionPresence > 0 then
          b.mentionPresence * (normalizeWeights w).mentionPresence +
          b.mentionContext * (normalizeWeights w).mentionContext +
          b.mentionPosition * (normalizeWeights w).mentionPosition +
          b.descriptionDetail * (normalizeWeights w).descriptionDetail +
          b.answerRelevance * (normalizeWeights w).answerRelevance +
          b.serviceMatch * (normalizeWeights w).serviceMatch
        else min
          (b.mentionPresence * (normalizeWeights w).mentionPresence +
           b.mentionContext * (normalizeWeights w).mentionContext +
           b.mentionPosition * (normalizeWeights w).mentionPosition +
           b.descriptionDetail * (normalizeWeights w).descriptionDetail +
           b.answerRelevance * (normalizeWeights w).answerRelevance +
           b.serviceMatch * (normalizeWeights w).serviceMatch) 0.2) := rfl

/-- Normalizing the default weights is the identity: they sum to exactly 1. -/
theorem normalizeWeights_default :
    normalizeWeights DEFAULT_SCORING_WEIGHTS = DEFAULT_SCORING_WEIGHTS := by
  have hs : sumWeights DEFAULT_SCORING_WEIGHTS = 1 := by
    norm_num [sumWeights, DEFAULT_SCORING_WEIGHTS]
  rw [normalizeWeights, hs]
  norm_num [DEFAULT_SCORING_WEIGHTS]

/-- C1: for every scoring breakdown whose mentionPresence factor equals 0,
`calculateVisibilityScore` returns a value ≤ 0.2 regardless of the other five
factor values (for any weight set); in particular, with the default weights
and all other factors equal to 1.0 and mentionPresence = 0, it returns
exactly 0.2. -/
theorem mention_absence_caps_score :
    (∀ (b : VisibilityScoringBreakdown) (w : ScoringWeights),
      b.mentionPresence = 0 → calculateVisibilityScore b w ≤ 0.2) ∧
    calculateVisibilityScore
      { mentionPresence := 0, mentionCount := 0, mentionContext := 1,
        mentionPosition := 1, descriptionDetail := 1, answerRelevance := 1,
        serviceMatch := 1, rationale := "" } DEFAULT_SCORING_WEIGHTS = 0.2 := by
  constructor
  · intro b w h
    rw [calculateVisibilityScore_eq, if_neg (by rw [h]; exact lt_irrefl 0)]
    exact clamp_le_of_le _ _ (by norm_num) (by norm_num) (min_le_right _ _)
  · rw [calculateVisibilityScore_eq, normalizeWeights_default]
    norm_num [DEFAULT_SCORING_WEIGHTS, clamp]

/-- Witness for `mention_absence_caps_score` at a concrete breakdown with
non-trivial other factors and non-default weights. -/
theorem mention_absence_caps_score_witness :
    calculateVisibilityScore
      { mentionPresence := 0, mentionCount := 5, mentionContext := 1,
        mentionPosition := 1, descriptionDetail := 1, answerRelevance := 1,
        serviceMatch := 1, rationale := "x" }
      { mentionPresence := 3, mentionContext := 1, mentionPosition := 1,
        descriptionDetail := 1, answerRelevance := 1, serviceMatch := 1 } ≤ 0.2 :=
  mention_absence_caps_score.1 _ _ rfl

/-- C3: for factors in [0,1] and non-negative weights of positive sum, the
calculated score lies in [0,1].  (The final `clamp` makes this hold; the
hypotheses delimit the validity domain of the claim.) -/
theorem score_in_unit_interval (b : VisibilityScoringBreakdown)
    (w : ScoringWeights)
    (hb : 0 ≤ b.mentionPresence ∧ b.mentionPresence ≤ 1 ∧
      0 ≤ b.mentionContext ∧ b.mentionContext ≤ 1 ∧
      0 ≤ b.mentionPosition ∧ b.mentionPosition ≤ 1 ∧
      0 ≤ b.descriptionDetail ∧ b.descriptionDetail ≤ 1 ∧
      0 ≤ b.answerRelevance ∧ b.answerRelevance ≤ 1 ∧
      0 ≤ b.serviceMatch ∧ b.serviceMatch ≤ 1)
    (hw : 0 ≤ w.mentionPresence ∧ 0 ≤ w.mentionContext ∧
      0 ≤ w.mentionPosition ∧ 0 ≤ w.descriptionDetail ∧
      0 ≤ w.answerRelevance ∧ 0 ≤ w.serviceMatch)
    (hsum : 0 < sumWeights w) :
    0 ≤ calculateVisibilityScore b w ∧ calculateVisibilityScore b w ≤ 1 := by
  rw [calculateVisibilityScore_eq]
  exact clamp_mem_unit _

/-- Witness for `score_in_unit_interval` at a concrete valid breakdown and
weight set. -/
theorem score_in_unit_interval_witness :
    0 ≤ calculateVisibilityScore
      { mentionPresence := 1, mentionCount := 2, mentionContext := 0.5,
        mentionPosition := 0.5, descriptionDetail := 1, answerRelevance := 0,
        serviceMatch := 1, rationale := "ok" }
      { mentionPresence := 1, mentionContext := 2, mentionPosition := 1,
        descriptionDetail := 1, answerRelevance := 1, serviceMatch := 1 } ∧
    calculateVisibilityScore
      { mentionPresence := 1, mentionCount := 2, mentionContext := 0.5,
        mentionPosition := 0.5, descriptionDetail := 1, answerRelevance := 0,
        serviceMatch := 1, rationale := "ok" }
      { mentionPresence := 1, mentionContext := 2, mentionPosition := 1,
        descriptionDetail := 1, answerRelevance := 1, serviceMatch := 1 } ≤ 1 :=
  score_in_unit_interval _ _
    (by norm_num) (by norm_num) (by norm_num [sumWeights])

/-- C4: a weight set whose six weights sum to exactly 0 yields the same score
as the documented default weights, for every breakdown. -/
theorem zero_sum_weights_default (b : VisibilityScoringBreakdown)
    (w : ScoringWeights) (h : sumWeights w = 0) :
    calculateVisibilityScore b w =
      calculateVisibilityScore b DEFAULT_SCORING_WEIGHTS := by
  have h1 : normalizeWeights w = DEFAULT_SCORING_WEIGHTS := by
    simp [normalizeWeights, h]
  simp only [calculateVisibilityScore, h1, normalizeWeights_default]

/-- Witness for `zero_sum_weights_default` at the all-zero weight set. -/
theorem zero_sum_weights_default_witness :
    calculateVisibilityScore
      { mentionPresence := 0.5, mentionCount := 1, mentionContext := 0.5,
        mentionPosition := 0.5, descriptionDetail := 0.5, answerRelevance := 0.5,
        serviceMatch := 0.5, rationale := "" }
      { mentionPresence := 0, mentionContext := 0, mentionPosition := 0,
        descriptionDetail := 0, answerRelevance := 0, serviceMatch := 0 } =
    calculateVisibilityScore
      { mentionPresence := 0.5, mentionCount := 1, mentionContext := 0.5,
        mentionPosition := 0.5, descriptionDetail := 0.5, answerRelevance := 0.5,
        serviceMatch := 0.5, rationale := "" } DEFAULT_SCORING_WEIGHTS :=
  zero_sum_weights_default _ _ (by norm_num [sumWeights])

/-! ## Theorems for claims C9, C8, C2 -/

/-- C9: the heuristic score is exactly one of 0.9, 0.7, 0.4, 0.1, selected by
case-insensitive substring presence of the company name and of at least one
service name in the answer. -/
theorem heuristic_score_ladder (company : CompanyProfile) (answer : String) :
    (heuristicScore company answer = 0.9 ∨ heuristicScore company answer = 0.7 ∨
     heuristicScore company answer = 0.4 ∨ heuristicScore company answer = 0.1) ∧
    (heuristicScore company answer = 0.9 ↔
      companyMentioned company answer = true ∧ serviceMatched company answer = true) ∧
    (heuristicScore company answer = 0.7 ↔
      companyMentioned company answer = true ∧ serviceMatched company answer = false) ∧
    (heuristicScore company answer = 0.4 ↔
      companyMentioned company answer = false ∧ serviceMatched company answer = true) ∧
    (heuristicScore company answer = 0.1 ↔
      companyMentioned company answer = false ∧ serviceMatched company answer = false) := by
  cases hc : companyMentioned company answer <;>
    cases hs : serviceMatched company answer <;>
    simp only [heuristicScore, hc, hs, Bool.and_self, Bool.true_and, Bool.false_and,
      if_true, if_false, Bool.true_eq_false, Bool.false_eq_true] <;>
    norm_num

/-- One banding comment is attached, fully determined by the average score
with bands inclusive at the lower bound and exclusive at the upper. -/
theorem bandComments_spec (a : ℚ) :
    (bandComments a).length = 1 ∧
    (a ≥ 0.75 → bandComments a = [wellRepresentedComment]) ∧
    (0.4 ≤ a ∧ a < 0.75 → bandComments a = [moderateVisibilityComment]) ∧
    (a < 0.4 → bandComments a = [almostInvisibleComment]) := by
  unfold bandComments
  split_ifs with h1 h2
  · exact ⟨rfl, fun _ => rfl, fun h => absurd h1 (by linarith [h.2]),
      fun h => absurd h1 (by linarith)⟩
  · push_neg at h1
    exact ⟨rfl, fun h => absurd h (by linarith), fun _ => rfl,
      fun h => absurd h2 (by linarith)⟩
  · push_neg at h1 h2
    exact ⟨rfl, fun h => absurd h (by linarith), fun h => absurd h.1 (by linarith),
      fun _ => rfl⟩

/-- C8: every insight the aggregator emits carries exactly one banding
comment chosen by its average score (lower bound inclusive, upper exclusive);
in particular two scores 0.9 and 0.5 for one service yield the insight with
average 0.7 and the moderate-visibility comment. -/
theorem insight_banding :
    (∀ (scores : List (String × ℚ)) (i : DashboardInsight), i ∈ mkInsights scores →
      i.comments.length = 1 ∧
      (i.avgScore ≥ 0.75 → i.comments = [wellRepresentedComment]) ∧
      (0.4 ≤ i.avgScore ∧ i.avgScore < 0.75 → i.comments = [moderateVisibilityComment]) ∧
      (i.avgScore < 0.4 → i.comments = [almostInvisibleComment])) ∧
    mkInsights [("backup", 0.9), ("backup", 0.5)] =
      [{ service := "backup", avgScore := 0.7,
         comments := [moderateVisibilityComment] }] := by
  constructor
  · intro scores i hi
    simp only [mkInsights, List.mem_map] at hi
    obtain ⟨p, _, rfl⟩ := hi
    exact bandComments_spec (avgOf p.2)
  · have h1 : groupScores [("backup", (0.9 : ℚ)), ("backup", 0.5)] =
        [("backup", [0.9, 0.5])] := by
      simp [groupScores, addScore]
    have h2 : avgOf [(0.9 : ℚ), 0.5] = 0.7 := by
      norm_num [avgOf, List.sum_cons, List.sum_nil]
    have h3 : bandComments (0.7 : ℚ) = [moderateVisibilityComment] := by
      rw [bandComments, if_neg (by norm_num), if_pos (by norm_num)]
    simp [mkInsights, h1, h2, h3]

/-- Witness for `insight_banding` at the two-score aggregation scenario. -/
theorem insight_banding_witness :
    ({ service := "backup", avgScore := 0.7,
       comments := [moderateVisibilityComment] } : DashboardInsight).comments =
      [moderateVisibilityComment] :=
  (insight_banding.1 [("backup", 0.9), ("backup", 0.5)] _
    (by rw [insight_banding.2]; exact List.mem_singleton.mpr rfl)).2.2.1
    (by norm_num)

/-- C2 counterexample: with an insight whose average score is 0.8 (≥ 0.75) and
an enrichment call that returns an empty string (empty bullet list), the code
produces the fixed "enhance descriptions" string, not the "reinforce
positioning" string the claim requires for avgScore ≥ 0.75. -/
theorem empty_bullets_high_score_counterexample :
    (0.75 : ℚ) ≤ 0.8 ∧
    splitBullets "" = [] ∧
    (buildRecommendation "Acme Cloud"
        { service := "backup", avgScore := 0.8, comments := [] }
        (some "")).description = enhanceDescription ∧
    enhanceDescription ≠ reinforceDescription := by
  refine ⟨by norm_num, rfl, rfl, by decide⟩

/-- C2 amended: on a thrown enrichment call (`none`) the fallback description
branches on avgScore ≥ 0.75 between the "reinforce positioning" and "enhance
descriptions" strings, while an empty split-and-trimmed bullet list from a
returned string always yields the "enhance descriptions" string regardless of
avgScore. -/
theorem recommendation_fallback_descriptions (companyName : String)
    (insight : DashboardInsight) (t : String) (h : splitBullets t = []) :
    (buildRecommendation companyName insight none).description =
      (if insight.avgScore ≥ 0.75 then reinforceDescription
       else enhanceDescription) ∧
    (buildRecommendation companyName insight (some t)).description =
      enhanceDescription := by
  constructor
  · rfl
  · simp [buildRecommendation, h]

/-- Witness for `recommendation_fallback_descriptions` at concrete inputs. -/
theorem recommendation_fallback_descriptions_witness :
    (buildRecommendation "Acme Cloud"
        { service := "backup", avgScore := 0.8, comments := [] }
        none).description =
      (if (0.8 : ℚ) ≥ 0.75 then reinforceDescription else enhanceDescription) ∧
    (buildRecommendation "Acme Cloud"
        { service := "backup", avgScore := 0.8, comments := [] }
        (some " - \n")).description = enhanceDescription :=
  recommendation_fallback_descriptions "Acme Cloud"
    { service := "backup", avgScore := 0.8, comments := [] } " - \n" rfl

/-! ## JSON values and a model of JSON.parse

The question parser (questionParser.ts) and the scoring parser
(scoringParser.ts) both delegate to the built-in `JSON.parse`.  `JsonVal`
models the parsed values (numbers idealized as exact rationals, strings as
character lists) and the fuel-indexed functions below model the strict JSON
grammar of `JSON.parse`: no trailing commas, string keys only, strict number
literals, raw control characters rejected inside strings. -/

inductive JsonVal where
  | null
  | bool (b : Bool)
  | num (q : ℚ)
  | str (s : List Char)
  | arr (elems : List JsonVal)
  | obj (fields : List (List Char × JsonVal))

/-- JSON lexer whitespace (space, tab, line feed, carriage return). -/
def isJsonWs (c : Char) : Bool := c = ' ' || c = '\t' || c = '\n' || c = '\r'

/-- Skip JSON whitespace. -/
def eatWs : List Char → List Char
  | [] => []
  | c :: t => if isJsonWs c then eatWs t else c :: t

def isDigitCh (c : Char) : Bool := '0' ≤ c && c ≤ '9'

/-- Maximal run of decimal digits and the remainder. -/
def grabDigits : List Char → List Char × List Char
  | [] => ([], [])
  | c :: t =>
    if isDigitCh c then
      let (ds, r) := grabDigits t
      (c :: ds, r)
    else ([], c :: t)

def digitsVal (ds : List Char) : Nat :=
  ds.foldl (fun a c => a * 10 + (c.toNat - 48)) 0

/-- Exponent digits of a number literal (at least one digit required). -/
def numExpDigits (signed : ℚ) (eneg : Bool) (r1 : List Char) :
    Option (ℚ × List Char) :=
  match grabDigits r1 with
  | ([], _) => none
  | (es, s4) =>
    some ((if eneg then signed / (10 : ℚ) ^ digitsVal es
           else signed * (10 : ℚ) ^ digitsVal es), s4)

/-- Optional sign of an exponent. -/
def numExpSign (signed : ℚ) (r : List Char) : Option (ℚ × List Char) :=
  match r with
  | [] => numExpDigits signed false []
  | c :: t =>
    if c = '+' then numExpDigits signed false t
    else if c = '-' then numExpDigits signed true t
    else numExpDigits signed false (c :: t)

/-- Optional exponent part of a number literal. -/
def numExp (signed : ℚ) (s3 : List Char) : Option (ℚ × List Char) :=
  match s3 with
  | [] => some (signed, [])
  | c :: t =>
    if c = 'e' || c = 'E' then numExpSign signed t
    else some (signed, c :: t)

/-- Optional fraction part of a number literal (dot needs a digit after). -/
def numFrac (intVal : ℚ) (s2 : List Char) : Option (ℚ × List Char) :=
  match s2 with
  | [] => some (intVal, [])
  | c :: t =>
    if c = '.' then
      match grabDigits t with
      | ([], _) => none
      | (fs, s3) =>
        some (intVal + (digitsVal fs : ℚ) / (10 : ℚ) ^ fs.length, s3)
    else some (intVal, c :: t)

/-- Digits and the following optional parts, after the optional minus sign:
integer part without leading zeros, fraction, exponent. -/
def numAfterSign (neg : Bool) (s1 : List Char) : Option (ℚ × List Char) :=
  match grabDigits s1 with
  | ([], _) => none
  | (d :: ds, s2) =>
    if d = '0' && !ds.isEmpty then none
    else
      match numFrac (digitsVal (d :: ds) : ℚ) s2 with
      | none => none
      | some (m, s3) => numExp (if neg then -m else m) s3

/-- Strict JSON number literal: optional minus, integer part without leading
zeros, optional fraction with at least one digit, optional exponent.  The
IEEE rounding of `JSON.parse` is idealized to the exact rational value. -/
def parseNumCore (s : List Char) : Option (ℚ × List Char) :=
  match s with
  | [] => numAfterSign false []
  | c :: t => if c = '-' then numAfterSign true t else numAfterSign false (c :: t)

def hexVal (c : Char) : Option Nat :=
  if '0' ≤ c && c ≤ '9' then some (c.toNat - 48)
  else if 'a' ≤ c && c ≤ 'f' then some (c.toNat - 87)
  else if 'A' ≤ c && c ≤ 'F' then some (c.toNat - 55)
  else none

def unescapeCh : Char → Option Char
  | '"' => some '"'
  | '\\' => some '\\'
  | '/' => some '/'
  | 'b' => some (Char.ofNat 8)
  | 'f' => some (Char.ofNat 12)
  | 'n' => some '\n'
  | 'r' => some '\r'
  | 't' => some '\t'
  | _ => none

/-- The body of a JSON string after its opening quote: contents up to the
closing quote, with escapes decoded and raw control characters rejected. -/
def strTail : List Char → Option (List Char × List Char)
  | [] => none
  | '"' :: r => some ([], r)
  | '\\' :: 'u' :: h1 :: h2 :: h3 :: h4 :: r =>
    match hexVal h1, hexVal h2, hexVal h3, hexVal h4 with
    | some a, some b, some c, some d =>
      (strTail r).map fun p =>
        (Char.ofNat (((a * 16 + b) * 16 + c) * 16 + d) :: p.1, p.2)
    | _, _, _, _ => none
  | '\\' :: e :: r =>
    match unescapeCh e with
    | some c => (strTail r).map fun p => (c :: p.1, p.2)
    | none => none
  | c :: r =>
    if c.toNat < 32 then none
    else (strTail r).map fun p => (c :: p.1, p.2)

mutual

/-- One JSON value (fuel-indexed model of the `JSON.parse` grammar). -/
def parseVal : Nat → List Char → Option (JsonVal × List Char)
  | 0, _ => none
  | fuel + 1, s =>
    match eatWs s with
    | [] => none
    | '{' :: r => parseObjStart fuel r
    | '[' :: r => parseArrStart fuel r
    | '"' :: r => (strTail r).map fun p => (JsonVal.str p.1, p.2)
    | 't' :: 'r' :: 'u' :: 'e' :: r => some (JsonVal.bool true, r)
    | 'f' :: 'a' :: 'l' :: 's' :: 'e' :: r => some (JsonVal.bool false, r)
    | 'n' :: 'u' :: 'l' :: 'l' :: r => some (JsonVal.null, r)
    | c :: r =>
      if c = '-' || isDigitCh c then
        (parseNumCore (c :: r)).map fun p => (JsonVal.num p.1, p.2)
      else none

/-- Array contents after the opening bracket. -/
def parseArrStart : Nat → List Char → Option (JsonVal × List Char)
  | 0, _ => none
  | fuel + 1, s =>
    match eatWs s with
    | ']' :: r => some (JsonVal.arr [], r)
    | _ =>
      match parseVal fuel s with
      | none => none
      | some (v, r1) =>
        match parseArrRest fuel r1 with
        | none => none
        | some (vs, r2) => some (JsonVal.arr (v :: vs), r2)

/-- Continuation of an array after one element: a comma and another element,
or the closing bracket. -/
def parseArrRest : Nat → List Char → Option (List JsonVal × List Char)
  | 0, _ => none
  | fuel + 1, s =>
    match eatWs s with
    | ']' :: r => some ([], r)
    | ',' :: r =>
      match parseVal fuel r with
      | none => none
      | some (v, r1) =>
        match parseArrRest fuel r1 with
        | none => none
        | some (vs, r2) => some (v :: vs, r2)
    | _ => none

/-- Object contents after the opening brace. -/
def parseObjStart : Nat → List Char → Option (JsonVal × List Char)
  | 0, _ => none
  | fuel + 1, s =>
    match eatWs s with
    | '}' :: r => some (JsonVal.obj [], r)
    | _ =>
      match parsePair fuel s with
      | none => none
      | some (kv, r1) =>
        match parseObjRest fuel r1 with
        | none => none
        | some (ms, r2) => some (JsonVal.obj (kv :: ms), r2)

/-- One `"key": value` member. -/
def parsePair : Nat → List Char → Option ((List Char × JsonVal) × List Char)
  | 0, _ => none
  | fuel + 1, s =>
    match eatWs s with
    | '"' :: r =>
      match strTail r with
      | none => none
      | some (key, r1) =>
        match eatWs r1 with
        | ':' :: r2 =>
          match parseVal fuel r2 with
          | none => none
          | some (v, r3) => some ((key, v), r3)
        | _ => none
    | _ => none

/-- Continuation of an object after one member. -/
def parseObjRest : Nat → List Char → Option (List (List Char × JsonVal) × List Char)
  | 0, _ => none
  | fuel + 1, s =>
    match eatWs s with
    | '}' :: r => some ([], r)
    | ',' :: r =>
      match parsePair fuel r with
      | none => none
      | some (kv, r1) =>
        match parseObjRest fuel r1 with
        | none => none
        | some (ms, r2) => some (kv :: ms, r2)
    | _ => none

end

/-- `JSON.parse` on a whole text: one value, then only whitespace.  The fuel
`2 * length + 4` exceeds the parser's possible consumption on any input. -/
def parseTop (s : List Char) : Option JsonVal :=
  match parseVal (2 * s.length + 4) s with
  | some (v, r) => if (eatWs r).isEmpty then some v else none
  | none => none

/-! ## Question records and their JSON.stringify image

`RawQuestion` mirrors the interface of questionParser.ts.  `serRec`/`serQs`
compute exactly the `JSON.stringify` output for an array of such records
(keys in interface order, standard escaping, no added whitespace). -/

structure RawQuestion where
  text : List Char
  intent : List Char
  language : List Char
deriving DecidableEq

def hexDigitCh (n : Nat) : Char :=
  if n < 10 then Char.ofNat (48 + n) else Char.ofNat (87 + n)

/-- `JSON.stringify` escaping of one character. -/
def escChar (c : Char) : List Char :=
  if c = '"' then ['\\', '"']
  else if c = '\\' then ['\\', '\\']
  else if c = '\n' then ['\\', 'n']
  else if c = '\r' then ['\\', 'r']
  else if c = '\t' then ['\\', 't']
  else if c = Char.ofNat 8 then ['\\', 'b']
  else if c = Char.ofNat 12 then ['\\', 'f']
  else if c.toNat < 32 then
    ['\\', 'u', '0', '0', hexDigitCh (c.toNat / 16), hexDigitCh (c.toNat % 16)]
  else [c]

def escBody (s : List Char) : List Char := s.flatMap escChar

/-- A JSON string literal. -/
def serStr (s : List Char) : List Char := '"' :: escBody s ++ ['"']

def keyText : List Char := ['t', 'e', 'x', 't']

def keyIntent : List Char := ['i', 'n', 't', 'e', 'n', 't']

def keyLanguage : List Char := ['l', 'a', 'n', 'g', 'u', 'a', 'g', 'e']

/-- `JSON.stringify` of one question record. -/
def serRec (r : RawQuestion) : List Char :=
  '{' :: serStr keyText ++ ':' :: serStr r.text ++
  ',' :: serStr keyIntent ++ ':' :: serStr r.intent ++
  ',' :: serStr keyLanguage ++ ':' :: serStr r.language ++ ['}']

/-- Tail of the array literal (separator-prefixed records and the close). -/
def serTail2 : List RawQuestion → List Char
  | [] => [']']
  | r :: t => ',' :: serRec r ++ serTail2 t

/-- `JSON.stringify` of an array of question records. -/
def serQs : List RawQuestion → List Char
  | [] => ['[', ']']
  | r :: t => '[' :: serRec r ++ serTail2 t

/-- The `JsonVal` a question record parses back to. -/
def toJson (r : RawQuestion) : JsonVal :=
  JsonVal.obj [(keyText, JsonVal.str r.text),
               (keyIntent, JsonVal.str r.intent),
               (keyLanguage, JsonVal.str r.language)]

/-! ## Extraction strategies of questionParser.ts and scoringParser.ts -/

/-- First occurrence of `needle`: the part before it and the part after it. -/
def splitFirst (needle : List Char) : List Char → Option (List Char × List Char)
  | [] => if needle.isEmpty then some ([], []) else none
  | c :: t =>
    if isPre needle (c :: t) then some ([], (c :: t).drop needle.length)
    else (splitFirst needle t).map fun p => (c :: p.1, p.2)

def fenceJson : List Char := ['`', '`', '`', 'j', 's', 'o', 'n']

def fence : List Char := ['`', '`', '`']

/-- The captured group of the fenced-code-block regexes: content between the
first occurrence of `opening` and the next triple backtick.  The surrounding
whitespace-stripping of the regex and the source's extra `.trim()` on the
captured group are modelled together by the single `jsTrim`. -/
def blockInner (opening : List Char) (s : List Char) : Option (List Char) :=
  match splitFirst opening s with
  | none => none
  | some (_, rest) =>
    match splitFirst fence rest with
    | none => none
    | some (inner, _) => some (jsTrim inner)

/-- Skip the whitespace the regexes match with their star quantifier. -/
def dropSpaces : List Char → List Char
  | [] => []
  | c :: t => if isSpace c then dropSpaces t else c :: t

/-- Does the text begin with an opening bracket, whitespace, opening brace? -/
def startsArrObj (s : List Char) : Bool :=
  match s with
  | '[' :: r =>
    match dropSpaces r with
    | '{' :: _ => true
    | _ => false
  | _ => false

/-- Leftmost start of the array-of-objects scan. -/
def scanStart : List Char → Option (List Char)
  | [] => none
  | c :: t => if startsArrObj (c :: t) then some (c :: t) else scanStart t

/-- On a reversed text: does it begin with closing bracket, whitespace,
closing brace (the reversed end pattern of the scan)? -/
def endsObjArr (s : List Char) : Bool :=
  match s with
  | ']' :: r =>
    match dropSpaces r with
    | '}' :: _ => true
    | _ => false
  | _ => false

/-- Rightmost end of the scan, located on the reversed text. -/
def scanEnd : List Char → Option (List Char)
  | [] => none
  | c :: t => if endsObjArr (c :: t) then some (c :: t) else scanEnd t

/-- Strategy 4 of questionParser.ts: the greedy regex match for an
array-of-objects shape - leftmost start, rightmost end. -/
def arrayScan (s : List Char) : Option (List Char) :=
  match scanStart s with
  | none => none
  | some u =>
    match scanEnd u.reverse with
    | none => none
    | some v => some v.reverse

/-! ## parseQuestionResponse (questionParser.ts) -/

def mockMarker : List Char := ['M', 'O', 'C', 'K', ']']

def mockResponseErr : String :=
  "LLM API key not configured - received mock response"

/-- Mirror of the `ParseResult` interface, with parsed questions kept as the
raw JSON values the source casts unchecked. -/
structure ParseResult where
  success : Bool
  questions : List JsonVal
  error : Option String

/-- A parse attempt that is returned only when it yields an array
(`Array.isArray` guard of every strategy). -/
def tryParseArr (s : List Char) : Option (List JsonVal) :=
  match parseTop s with
  | some (JsonVal.arr xs) => some xs
  | _ => none

/-- A fenced-block strategy: run only when the captured group is non-empty
(the JS truthiness check on the capture), returned only on an array parse. -/
def blockStrategy (opening : List Char) (s : List Char) : Option (List JsonVal) :=
  match blockInner opening s with
  | none => none
  | some g => if g.isEmpty then none else tryParseArr g

/-- Mirror of `parseQuestionResponse`: mock-sentinel check, then the four
extraction strategies in order, first array success wins. -/
def parseQuestionResponse (response : List Char) : ParseResult :=
  if response.isEmpty then
    { success := false, questions := [], error := some "Empty or invalid response" }
  else
    let trimmed := jsTrim response
    if isPre ['['] trimmed && hasSub trimmed mockMarker then
      { success := false, questions := [], error := some mockResponseErr }
    else
      match tryParseArr trimmed with
      | some qs => { success := true, questions := qs, error := none }
      | none =>
        match blockStrategy fenceJson trimmed with
        | some qs => { success := true, questions := qs, error := none }
        | none =>
          match blockStrategy fence trimmed with
          | some qs => { success := true, questions := qs, error := none }
          | none =>
            match (arrayScan trimmed).bind tryParseArr with
            | some qs => { success := true, questions := qs, error := none }
            | none =>
              { success := false, questions := [],
                error := some "Could not extract valid JSON array from response" }

/-- The markdown wrapping named by the round-trip claim: the payload placed
inside a ```json fenced code block. -/
def wrapJson (s : List Char) : List Char :=
  fenceJson ++ '\n' :: (s ++ '\n' :: fence)

/-! ## parseScoringResponse (scoringParser.ts) -/

/-- Mirror of the `ScoringParseResult` interface. -/
structure ScoringParseResult where
  success : Bool
  breakdown : Option VisibilityScoringBreakdown
  error : Option String

/-- JS property access on a parsed value: the last binding wins, matching the
duplicate-key behaviour of `JSON.parse`; anything but an object (or an object
without the key) gives the undefined model `none`. -/
def getField : JsonVal → List Char → Option JsonVal
  | JsonVal.obj fields, key => lastBinding fields key
  | _, _ => none
where
  lastBinding : List (List Char × JsonVal) → List Char → Option JsonVal
    | [], _ => none
    | (k, x) :: t, key =>
      match lastBinding t key with
      | some y => some y
      | none => if k = key then some x else none

/-- `Number(string)` coercion, modelled for the plain decimal literals the
scoring pipeline can produce (empty and blank strings give 0; anything the
strict literal grammar rejects is treated as the `NaN` model `none`). -/
def strToNum (s : List Char) : Option ℚ :=
  let t := jsTrim s
  if t.isEmpty then some 0
  else
    match t with
    | '+' :: r =>
      match parseNumCore r with
      | some (q, []) => some q
      | _ => none
    | _ =>
      match parseNumCore t with
      | some (q, []) => some q
      | _ => none

/-- `typeof value === "number" ? value : Number(value)` on a parsed JSON
value; `none` models `NaN`. -/
def jsToNum : JsonVal → Option ℚ
  | JsonVal.num q => some q
  | JsonVal.bool b => some (if b then 1 else 0)
  | JsonVal.null => some 0
  | JsonVal.str s => strToNum s
  | JsonVal.arr [] => some 0
  | JsonVal.arr [x] => jsToNum x
  | JsonVal.arr (_ :: _ :: _) => none
  | JsonVal.obj _ => none

/-- The private `clamp` of scoringParser.ts applied to one looked-up field:
coerce to a number, send non-finite (here: non-coercible) to 0, clamp to
[0,1]. -/
def coerceClamp (v : Option JsonVal) : ℚ :=
  match v with
  | none => 0
  | some x =>
    match jsToNum x with
    | none => 0
    | some n => if n < 0 then 0 else if n > 1 then 1 else n

/-- `Number.isFinite(parsed.mentionCount) ? parsed.mentionCount : 0` - no
coercion: only a number passes. -/
def countField (v : Option JsonVal) : ℚ :=
  match v with
  | some (JsonVal.num q) => q
  | _ => 0

/-- `typeof parsed.rationale === "string" ? parsed.rationale : ""`. -/
def rationaleField (v : Option JsonVal) : String :=
  match v with
  | some (JsonVal.str s) => String.mk s
  | _ => ""

/-- The inner `tryParse` of `parseScoringResponse`: parse, reject null and
primitives, normalize the fields of anything object-typed (arrays included,
as in JS, where every lookup then misses).  JS exception texts are modelled
by one fixed message. -/
def tryParseScoring (text : List Char) : ScoringParseResult :=
  match parseTop text with
  | none =>
    { success := false, breakdown := none,
      error := some "Failed to parse scoring JSON" }
  | some JsonVal.null =>
    { success := false, breakdown := none,
      error := some "Parsed scoring is not an object" }
  | some (JsonVal.bool _) =>
    { success := false, breakdown := none,
      error := some "Parsed scoring is not an object" }
  | some (JsonVal.num _) =>
    { success := false, breakdown := none,
      error := some "Parsed scoring is not an object" }
  | some (JsonVal.str _) =>
    { success := false, breakdown := none,
      error := some "Parsed scoring is not an object" }
  | some v =>
    { success := true
      breakdown := some
        { mentionPresence := coerceClamp (getField v (['m','e','n','t','i','o','n'] ++ ['P','r','e','s','e','n','c','e']))
          mentionCount := countField (getField v (['m','e','n','t','i','o','n'] ++ ['C','o','u','n','t']))
          mentionContext := coerceClamp (getField v (['m','e','n','t','i','o','n'] ++ ['C','o','n','t','e','x','t']))
          mentionPosition := coerceClamp (getField v (['m','e','n','t','i','o','n'] ++ ['P','o','s','i','t','i','o','n']))
          descriptionDetail := coerceClamp (getField v (['d','e','s','c','r','i','p','t','i','o','n'] ++ ['D','e','t','a','i','l']))
          answerRelevance := coerceClamp (getField v (['a','n','s','w','e','r'] ++ ['R','e','l','e','v','a','n','c','e']))
          serviceMatch := coerceClamp (getField v (['s','e','r','v','i','c','e'] ++ ['M','a','t','c','h']))
          rationale := rationaleField (getField v (['r','a','t','i','o','n','a','l','e'])) }
      error := none }

/-- A fenced-block scoring strategy: non-empty captured group, returned only
on a successful parse. -/
def blockScoringStrategy (opening : List Char) (s : List Char) :
    Option ScoringParseResult :=
  match blockInner opening s with
  | none => none
  | some g =>
    if g.isEmpty then none
    else
      let p := tryParseScoring g
      if p.success then some p else none

/-- Mirror of `parseScoringResponse`: mock-sentinel check, direct parse, then
the two fenced-block strategies, falling back to the direct error. -/
def parseScoringResponse (response : List Char) : ScoringParseResult :=
  if response.isEmpty then
    { success := false, breakdown := none, error := some "Empty or invalid response" }
  else
    let trimmed := jsTrim response
    if isPre ['['] trimmed && hasSub trimmed mockMarker then
      { success := false, breakdown := none, error := some mockResponseErr }
    else
      let direct := tryParseScoring trimmed
      if direct.success then direct
      else
        match blockScoringStrategy fenceJson trimmed with
        | some p => p
        | none =>
          match blockScoringStrategy fence trimmed with
          | some p => p
          | none =>
            { success := false, breakdown := none,
              error := some (match direct.error with
                | some e => e
                | none => "Could not parse scoring response") }

/-! ## Question validator (questionValidator.ts) -/

def VALID_INTENTS : List (List Char) :=
  [['f','i','n','d','_','s','e','r','v','i','c','e'],
   ['e','v','a','l','u','a','t','e','_','c','o','m','p','a','n','y'],
   ['c','o','m','p','a','r','e','_','o','p','t','i','o','n','s'],
   ['p','r','i','c','i','n','g'],
   ['r','e','v','i','e','w','s'],
   ['f','e','a','t','u','r','e','s'],
   ['a','l','t','e','r','n','a','t','i','v','e','s']]

/-- Mirror of `ValidationConfig` (the `allowedLanguages` field exists in the
source but is never read by the validator). -/
structure ValidationConfig where
  minTextLength : Option Nat
  maxTextLength : Option Nat
  allowedIntents : Option (List (List Char))
  allowedLanguages : Option (List (List Char))

/-- The empty config object `{}`. -/
def emptyConfig : ValidationConfig :=
  { minTextLength := none, maxTextLength := none,
    allowedIntents := none, allowedLanguages := none }

/-- Mirror of `ValidationError`; `value := none` models a JS `undefined`
field access. -/
structure ValidationError where
  field : String
  value : Option JsonVal
  message : String

/-- The `questions[i]` field path with an optional member suffix. -/
def qField (index : Nat) (suffix : String) : String :=
  "questions[" ++ toString index ++ "]" ++ suffix

def isLowerAlpha (c : Char) : Bool := 'a' ≤ c && c ≤ 'z'

/-- Comma-space join of the allowed intents for the intent error message. -/
def joinIntents (intents : List (List Char)) : String :=
  String.mk (List.intercalate [',', ' '] intents)

/-- Mirror of `validateSingleQuestion`: object check, then the text, intent
and language checks, collecting errors in source order. -/
def validateSingleQuestion (question : JsonVal) (index : Nat)
    (config : ValidationConfig) : List ValidationError :=
  let minLength := config.minTextLength.getD 10
  let maxLength := config.maxTextLength.getD 200
  let allowedIntents := config.allowedIntents.getD VALID_INTENTS
  match question with
  | JsonVal.obj fields =>
    let textVal := getField (JsonVal.obj fields) keyText
    let textErrors :=
      match textVal with
      | some (JsonVal.str s) =>
        let textLength := (jsTrim s).length
        (if textLength < minLength then
          [{ field := qField index ".text", value := some (JsonVal.str s),
             message := "Question text must be at least " ++
               toString minLength ++ " characters" }] else []) ++
        (if textLength > maxLength then
          [{ field := qField index ".text", value := some (JsonVal.str s),
             message := "Question text must not exceed " ++
               toString maxLength ++ " characters" }] else []) ++
        (if textLength = 0 then
          [{ field := qField index ".text", value := some (JsonVal.str s),
             message := "Question text cannot be empty" }] else [])
      | v =>
        [{ field := qField index ".text", value := v,
           message := "Question text must be a string" }]
    let intentVal := getField (JsonVal.obj fields) keyIntent
    let intentErrors :=
      match intentVal with
      | some (JsonVal.str s) =>
        if allowedIntents.contains s then []
        else
          [{ field := qField index ".intent", value := some (JsonVal.str s),
             message := "Intent must be one of: " ++ joinIntents allowedIntents }]
      | v =>
        [{ field := qField index ".intent", value := v,
           message := "Question intent must be a string" }]
    let languageVal := getField (JsonVal.obj fields) keyLanguage
    let languageErrors :=
      match languageVal with
      | some (JsonVal.str s) =>
        let langCode := jsTrim (lowerList s)
        if langCode.length = 2 && langCode.all isLowerAlpha then []
        else
          [{ field := qField index ".language", value := some (JsonVal.str s),
             message := "Language must be a valid ISO 639-1 code (2 letters)" }]
      | v =>
        [{ field := qField index ".language", value := v,
           message := "Question language must be a string" }]
    textErrors ++ intentErrors ++ languageErrors
  | q =>
    [{ field := "questions[" ++ toString index ++ "]", value := some q,
       message := "Question must be an object" }]

/-- The string content of a field of a validated question (only applied after
validation guarantees the field is a string). -/
def strFieldOf (q : JsonVal) (key : List Char) : List Char :=
  match getField q key with
  | some (JsonVal.str s) => s
  | _ => []

/-- The normalization applied to an accepted question: text trimmed, intent
as is, language lowercased and trimmed. -/
def normalizeAccepted (q : JsonVal) : RawQuestion :=
  { text := jsTrim (strFieldOf q keyText)
    intent := strFieldOf q keyIntent
    language := jsTrim (lowerList (strFieldOf q keyLanguage)) }

/-- Mirror of `ValidationResult`. -/
structure ValidationResult where
  valid : Bool
  questions : List RawQuestion
  errors : List ValidationError

/-- The indexed loop of `validateQuestions`: valid candidates are normalized
and kept, bad candidates contribute their errors. -/
def validateLoop (qs : List JsonVal) (i : Nat) (config : ValidationConfig) :
    List RawQuestion × List ValidationError :=
  match qs with
  | [] => ([], [])
  | q :: t =>
    let errs := validateSingleQuestion q i config
    let rest := validateLoop t (i + 1) config
    if errs.isEmpty then (normalizeAccepted q :: rest.1, rest.2)
    else (rest.1, errs ++ rest.2)

/-- Mirror of `validateQuestions`.  The input is a list, so the defensive
non-array branch of the source is unreachable in this model. -/
def validateQuestions (questions : List JsonVal) (config : ValidationConfig) :
    ValidationResult :=
  let r := validateLoop questions 0 config
  { valid := r.2.isEmpty, questions := r.1, errors := r.2 }

/-! ## Theorems for claim C5 -/

/-- One-step unfolding of the validation loop (definitional). -/
theorem validateLoop_cons (q : JsonVal) (t : List JsonVal) (i : Nat)
    (config : ValidationConfig) :
    validateLoop (q :: t) i config =
      if (validateSingleQuestion q i config).isEmpty
      then (normalizeAccepted q :: (validateLoop t (i + 1) config).1,
            (validateLoop t (i + 1) config).2)
      else ((validateLoop t (i + 1) config).1,
            validateSingleQuestion q i config ++ (validateLoop t (i + 1) config).2) := rfl

/-- The loop keeps exactly the candidates without individual errors
(normalized) and collects no error iff every candidate passes. -/
theorem validateLoop_spec (config : ValidationConfig) :
    ∀ (qs : List JsonVal) (i : Nat),
      (validateLoop qs i config).1 =
        ((List.enumFrom i qs).filter fun p =>
          (validateSingleQuestion p.2 p.1 config).isEmpty).map
          (fun p => normalizeAccepted p.2) ∧
      ((validateLoop qs i config).2 = [] ↔
        ∀ p ∈ List.enumFrom i qs, validateSingleQuestion p.2 p.1 config = [])
  | [], i => by simp [validateLoop]
  | q :: t, i => by
    obtain ⟨ih1, ih2⟩ := validateLoop_spec config t (i + 1)
    rw [validateLoop_cons]
    by_cases h : (validateSingleQuestion q i config).isEmpty = true
    · have hq : validateSingleQuestion q i config = [] := by
        cases he : validateSingleQuestion q i config with
        | nil => rfl
        | cons a l => rw [he] at h; exact absurd h (by simp [List.isEmpty])
      rw [if_pos h]
      constructor
      · simp [List.enumFrom, List.filter, h, ih1]
      · simp [List.enumFrom, hq, ih2]
    · have hq : ¬ validateSingleQuestion q i config = [] := by
        intro he; rw [he] at h; exact h rfl
      rw [if_neg h]
      constructor
      · simp [List.enumFrom, List.filter, h, ih1]
      · simp only [List.enumFrom, List.mem_cons, List.append_eq_nil]
        constructor
        · intro habs; exact absurd habs.1 hq
        · intro hall; exact absurd (hall (i, q) (Or.inl rfl)) hq

/-- C5: the batch validator returns `valid = true` iff zero validation errors
were collected across all candidates, and its accepted list contains exactly
the candidates that individually produced no errors, normalized (text
trimmed, language lowercased and trimmed), in order. -/
theorem validateQuestions_spec (qs : List JsonVal) (config : ValidationConfig) :
    ((validateQuestions qs config).valid = true ↔
      ∀ p ∈ List.enumFrom 0 qs, validateSingleQuestion p.2 p.1 config = []) ∧
    (validateQuestions qs config).questions =
      ((List.enumFrom 0 qs).filter fun p =>
        (validateSingleQuestion p.2 p.1 config).isEmpty).map
        (fun p => normalizeAccepted p.2) := by
  obtain ⟨h1, h2⟩ := validateLoop_spec config qs 0
  constructor
  · rw [show (validateQuestions qs config).valid =
      (validateLoop qs 0 config).2.isEmpty from rfl]
    rw [List.isEmpty_iff]
    exact h2
  · exact h1

/-- A concrete candidate that passes every check ("Who does backups?",
intent pricing, language "En" normalizing to "en"). -/
def goodCandidate : JsonVal :=
  JsonVal.obj
    [(keyText, JsonVal.str
       ['W','h','o',' ','d','o','e','s',' ','b','a','c','k','u','p','s','?']),
     (keyIntent, JsonVal.str ['p','r','i','c','i','n','g']),
     (keyLanguage, JsonVal.str ['E','n'])]

/-- Witness for `validateQuestions_spec`: one bad candidate (a bare null)
makes the batch invalid while the passing candidate is still returned,
normalized. -/
theorem validateQuestions_spec_witness :
    ¬ (∀ p ∈ List.enumFrom 0 [goodCandidate, JsonVal.null],
        validateSingleQuestion p.2 p.1 emptyConfig = []) ∧
    (validateQuestions [goodCandidate, JsonVal.null] emptyConfig).questions =
      [{ text := ['W','h','o',' ','d','o','e','s',' ','b','a','c','k','u','p','s','?'],
         intent := ['p','r','i','c','i','n','g'],
         language := ['e','n'] }] := by
  constructor
  · intro hall
    have hv := (validateQuestions_spec [goodCandidate, JsonVal.null] emptyConfig).1.mpr hall
    have hf : (validateQuestions [goodCandidate, JsonVal.null] emptyConfig).valid = false := by
      rfl
    rw [hf] at hv
    exact Bool.false_ne_true hv
  · rw [(validateQuestions_spec [goodCandidate, JsonVal.null] emptyConfig).2]
    rfl

/-! ## Theorems for claim C6 -/

/-- Both parsers return the fixed mock failure whenever the trimmed response
starts with an opening bracket and contains the mock marker. -/
theorem mock_branch (s : List Char) (h0 : s.isEmpty = false)
    (h1 : isPre ['['] (jsTrim s) = true)
    (h2 : hasSub (jsTrim s) mockMarker = true) :
    parseQuestionResponse s =
      { success := false, questions := [], error := some mockResponseErr } ∧
    parseScoringResponse s =
      { success := false, breakdown := none, error := some mockResponseErr } := by
  constructor
  · simp [parseQuestionResponse, h0, h1, h2]
  · simp [parseScoringResponse, h0, h1, h2]

def mockExampleText : List Char :=
  ['[','M','O','C','K',']',' ','s','o','m','e',' ','t','e','x','t']

/-- C6: for any response whose trimmed form starts with an opening bracket
and contains the literal marker, question extraction fails with the fixed
missing-API-key reason - the result is this failure irrespective of the rest
of the text, so no JSON parse outcome can surface; in particular for the
text "[MOCK] some text". -/
theorem mock_sentinel_detection :
    (∀ s : List Char, s.isEmpty = false → isPre ['['] (jsTrim s) = true →
      hasSub (jsTrim s) mockMarker = true →
      parseQuestionResponse s =
        { success := false, questions := [], error := some mockResponseErr }) ∧
    parseQuestionResponse mockExampleText =
      { success := false, questions := [], error := some mockResponseErr } := by
  refine ⟨fun s h0 h1 h2 => (mock_branch s h0 h1 h2).1, ?_⟩
  exact (mock_branch mockExampleText rfl (by decide) (by decide)).1

/-- Witness for `mock_sentinel_detection` at a response with leading
whitespace around the sentinel. -/
theorem mock_sentinel_detection_witness :
    parseQuestionResponse (' ' :: mockExampleText) =
      { success := false, questions := [], error := some mockResponseErr } :=
  mock_sentinel_detection.1 (' ' :: mockExampleText) rfl (by decide) (by decide)

/-! ## Round-trip lemmas: parsing a stringified question array -/

@[simp]
theorem eatWs_lbrace (t : List Char) : eatWs ('{' :: t) = '{' :: t := rfl

@[simp]
theorem eatWs_lbracket (t : List Char) : eatWs ('[' :: t) = '[' :: t := rfl

@[simp]
theorem eatWs_rbracket (t : List Char) : eatWs (']' :: t) = ']' :: t := rfl

@[simp]
theorem eatWs_rbrace (t : List Char) : eatWs ('}' :: t) = '}' :: t := rfl

@[simp]
theorem eatWs_quote (t : List Char) : eatWs ('"' :: t) = '"' :: t := rfl

@[simp]
theorem eatWs_colon (t : List Char) : eatWs (':' :: t) = ':' :: t := rfl

@[simp]
theorem eatWs_comma (t : List Char) : eatWs (',' :: t) = ',' :: t := rfl

theorem hexVal_hexDigitCh (n : Nat) (h : n < 16) : hexVal (hexDigitCh n) = some n := by
  interval_cases n <;> decide

/-- Decoding one escaped character steps through it and continues. -/
theorem strTail_escChar (c : Char) (z : List Char) :
    strTail (escChar c ++ z) = (strTail z).map fun p => (c :: p.1, p.2) := by
  unfold escChar
  split_ifs with h1 h2 h3 h4 h5 h6 h7 h8
  · subst h1; simp [strTail, unescapeCh]
  · subst h2; simp [strTail, unescapeCh]
  · subst h3; simp [strTail, unescapeCh]
  · subst h4; simp [strTail, unescapeCh]
  · subst h5; simp [strTail, unescapeCh]
  · subst h6; simp [strTail, unescapeCh]
  · subst h7; simp [strTail, unescapeCh]
  · have hdiv : c.toNat / 16 < 16 := by omega
    have hmod : c.toNat % 16 < 16 := Nat.mod_lt _ (by omega)
    simp only [List.cons_append, List.nil_append, strTail,
      hexVal_hexDigitCh _ hdiv, hexVal_hexDigitCh _ hmod,
      show hexVal '0' = some 0 from by decide]
    have harith : ((0 * 16 + 0) * 16 + c.toNat / 16) * 16 + c.toNat % 16 = c.toNat := by
      omega
    simp only [harith, Char.ofNat_toNat]
    rfl
  · rw [List.singleton_append, strTail.eq_def]
    have hc8 : ¬ c.toNat < 32 := h8
    cases z with
    | nil => simp [h1, h2, hc8, strTail]
    | cons a l => simp [h1, h2, hc8]

/-- Parsing an escaped string body stops exactly at the closing quote. -/
theorem strTail_escBody : ∀ (t z : List Char),
    strTail (escBody t ++ '"' :: z) = some (t, z)
  | [], z => by simp [escBody, strTail]
  | c :: t, z => by
    rw [show escBody (c :: t) = escChar c ++ escBody t from rfl,
      List.append_assoc, strTail_escChar, strTail_escBody t z]
    rfl

/-- An escaped string body with no closing quote does not parse. -/
theorem strTail_escBody_none : ∀ t : List Char, strTail (escBody t) = none
  | [] => rfl
  | c :: t => by
    rw [show escBody (c :: t) = escChar c ++ escBody t from rfl,
      strTail_escChar, strTail_escBody_none t]
    rfl

/-- A serialized string literal parses as a string value. -/
theorem parseVal_serStr (f : Nat) (s z : List Char) :
    parseVal (f + 1) (serStr s ++ z) = some (JsonVal.str s, z) := by
  rw [show serStr s ++ z = '"' :: (escBody s ++ '"' :: z) by
    simp [serStr]]
  show (strTail (escBody s ++ '"' :: z)).map _ = _
  rw [strTail_escBody]
  rfl

/-- A serialized `"key":"value"` member parses as that pair. -/
theorem parsePair_ser (g : Nat) (k v z : List Char) :
    parsePair (g + 2) ('"' :: (escBody k ++ '"' :: ':' :: (serStr v ++ z))) =
      some ((k, JsonVal.str v), z) := by
  simp only [parsePair, eatWs_quote, strTail_escBody, eatWs_colon,
    parseVal_serStr]

/-- A serialized question record parses back to its `JsonVal` image. -/
theorem rt_record (r : RawQuestion) (z : List Char) (f : Nat) :
    parseVal (f + 8) (serRec r ++ z) = some (toJson r, z) := by
  have hshape : serRec r ++ z =
      '{' :: ('"' :: (escBody keyText ++ '"' :: ':' :: (serStr r.text ++
        (',' :: ('"' :: (escBody keyIntent ++ '"' :: ':' :: (serStr r.intent ++
        (',' :: ('"' :: (escBody keyLanguage ++ '"' :: ':' :: (serStr r.language ++
        ('}' :: z)))))))))))) := by
    simp [serRec, serStr]
  rw [hshape]
  simp only [parseVal, parseObjStart, parseObjRest, parsePair_ser,
    eatWs_lbrace, eatWs_quote, eatWs_comma, eatWs_rbrace, toJson]
  rfl

/-- The serialized tail of an array parses as the remaining elements. -/
theorem rt_tail2 : ∀ (t : List RawQuestion) (z : List Char) (fuel : Nat),
    10 * t.length + 1 ≤ fuel →
    parseArrRest fuel (serTail2 t ++ z) = some (t.map toJson, z)
  | [], z, fuel, h => by
    obtain ⟨g, rfl⟩ : ∃ g, fuel = g + 1 := ⟨fuel - 1, by omega⟩
    simp [serTail2, parseArrRest]
  | r :: t, z, fuel, h => by
    obtain ⟨g, rfl⟩ : ∃ g, fuel = g + 1 := ⟨fuel - 1, by omega⟩
    have hrec : parseVal g (serRec r ++ (serTail2 t ++ z)) =
        some (toJson r, serTail2 t ++ z) := by
      obtain ⟨g2, rfl⟩ : ∃ g2, g = g2 + 8 := by
        refine ⟨g - 8, ?_⟩
        simp only [List.length_cons] at h
        omega
      exact rt_record r (serTail2 t ++ z) g2
    have hrest : parseArrRest g (serTail2 t ++ z) = some (t.map toJson, z) := by
      apply rt_tail2 t z g
      simp only [List.length_cons] at h
      omega
    rw [show serTail2 (r :: t) ++ z = ',' :: (serRec r ++ (serTail2 t ++ z)) by
      simp [serTail2]]
    simp only [parseArrRest, eatWs_comma, hrec, hrest, List.map_cons]

/-- A general whitespace-skip step. -/
theorem eatWs_cons (c : Char) (t : List Char) (h : isJsonWs c = false) :
    eatWs (c :: t) = c :: t := by
  simp [eatWs, h]

/-- The array-content parser on input that does not open with the closing
bracket reduces to one element followed by the rest of the array. -/
theorem parseArrStart_notbracket (g : Nat) (c : Char) (t : List Char)
    (h1 : isJsonWs c = false) (h2 : c ≠ ']') :
    parseArrStart (g + 1) (c :: t) =
      (match parseVal g (c :: t) with
       | none => none
       | some (v, r1) =>
         match parseArrRest g r1 with
         | none => none
         | some (vs, r2) => some (JsonVal.arr (v :: vs), r2)) := by
  simp only [parseArrStart, eatWs_cons c t h1]
  split
  · next r heq => exact absurd (List.cons.inj heq).1 h2
  · rfl

/-- A serialized question array parses as the array of record images. -/
theorem rt_serQs : ∀ (qs : List RawQuestion) (z : List Char) (fuel : Nat),
    10 * qs.length + 4 ≤ fuel →
    parseVal fuel (serQs qs ++ z) = some (JsonVal.arr (qs.map toJson), z)
  | [], z, fuel, h => by
    obtain ⟨g, rfl⟩ : ∃ g, fuel = g + 2 := ⟨fuel - 2, by omega⟩
    simp [serQs, parseVal, parseArrStart]
  | r :: t, z, fuel, h => by
    obtain ⟨g, rfl⟩ : ∃ g, fuel = g + 2 := ⟨fuel - 2, by omega⟩
    rw [show serQs (r :: t) ++ z = '[' :: (serRec r ++ (serTail2 t ++ z)) by
      simp [serQs]]
    have hrec : parseVal g (serRec r ++ (serTail2 t ++ z)) =
        some (toJson r, serTail2 t ++ z) := by
      obtain ⟨g2, rfl⟩ : ∃ g2, g = g2 + 8 := by
        refine ⟨g - 8, ?_⟩
        simp only [List.length_cons] at h
        omega
      exact rt_record r (serTail2 t ++ z) g2
    have hrest : parseArrRest g (serTail2 t ++ z) = some (t.map toJson, z) := by
      apply rt_tail2 t z g
      simp only [List.length_cons] at h
      omega
    have hse : serRec r ++ (serTail2 t ++ z) =
        '{' :: (serStr keyText ++ ':' :: serStr r.text ++
          ',' :: serStr keyIntent ++ ':' :: serStr r.intent ++
          ',' :: serStr keyLanguage ++ ':' :: serStr r.language ++
          '}' :: (serTail2 t ++ z)) := by
      simp [serRec]
    simp only [parseVal, eatWs_lbracket]
    rw [hse, parseArrStart_notbracket g '{' _ (by decide) (by decide), ← hse]
    simp only [hrec, hrest, List.map_cons]

/-- Top-level round trip: `JSON.parse` of a stringified question array. -/
theorem serRec_len (r : RawQuestion) : 9 ≤ (serRec r).length := by
  simp [serRec, serStr]
  omega

theorem serTail2_len : ∀ t : List RawQuestion, 5 * t.length + 1 ≤ (serTail2 t).length
  | [] => by simp [serTail2]
  | r :: t => by
    have h1 := serRec_len r
    have h2 := serTail2_len t
    simp only [serTail2, List.length_cons, List.length_append]
    omega

theorem serQs_len : ∀ qs : List RawQuestion, 5 * qs.length ≤ (serQs qs).length
  | [] => by simp [serQs]
  | r :: t => by
    have h1 := serRec_len r
    have h2 := serTail2_len t
    simp only [serQs, List.length_cons, List.length_append]
    omega

theorem rt_parseTop (qs : List RawQuestion) :
    parseTop (serQs qs) = some (JsonVal.arr (qs.map toJson)) := by
  unfold parseTop
  have hb : 10 * qs.length + 4 ≤ 2 * (serQs qs).length + 4 := by
    have := serQs_len qs
    omega
  have h := rt_serQs qs [] (2 * (serQs qs).length + 4) hb
  rw [List.append_nil] at h
  rw [h]
  rfl

/-- The parser rejects any text that opens with a backtick. -/
theorem parseVal_backtick (f : Nat) (t : List Char) :
    parseVal f ('`' :: t) = none := by
  cases f with
  | zero => rfl
  | succ g => rfl

/-- The parser rejects any text that opens with the letter j. -/
theorem parseVal_jay (f : Nat) (t : List Char) :
    parseVal f ('j' :: t) = none := by
  cases f with
  | zero => rfl
  | succ g => rfl

/-! ## Occurrence lemmas for the extraction strategies -/

theorem isPre_append : ∀ (n s z : List Char), isPre n s = true → isPre n (s ++ z) = true
  | [], _, _, _ => rfl
  | a :: n, [], z, h => by simp [isPre] at h
  | a :: n, b :: s, z, h => by
    simp only [isPre, Bool.and_eq_true, decide_eq_true_eq] at h
    simp only [List.cons_append, isPre, Bool.and_eq_true, decide_eq_true_eq]
    exact ⟨h.1, isPre_append n s z h.2⟩

theorem isPre_length : ∀ (n s : List Char), isPre n s = true → n.length ≤ s.length
  | [], s, _ => by simp
  | a :: n, [], h => by simp [isPre] at h
  | a :: n, b :: s, h => by
    simp only [isPre, Bool.and_eq_true] at h
    simpa using Nat.succ_le_succ (isPre_length n s h.2)

theorem isPre_of_append_le : ∀ (n s z : List Char),
    isPre n (s ++ z) = true → n.length ≤ s.length → isPre n s = true
  | [], _, _, _, _ => rfl
  | a :: n, [], z, _, hl => by simp at hl
  | a :: n, b :: s, z, h, hl => by
    simp only [List.cons_append, isPre, Bool.and_eq_true, decide_eq_true_eq] at h
    simp only [isPre, Bool.and_eq_true, decide_eq_true_eq]
    exact ⟨h.1, isPre_of_append_le n s z h.2 (by simpa using hl)⟩

theorem isPre_self_append : ∀ n u : List Char, isPre n (n ++ u) = true
  | [], _ => rfl
  | a :: n, u => by simp [isPre, isPre_self_append n u]

theorem isPre_decomp : ∀ (n s : List Char), isPre n s = true →
    s = n ++ s.drop n.length
  | [], s, _ => by simp
  | a :: n, [], h => by simp [isPre] at h
  | a :: n, b :: s, h => by
    simp only [isPre, Bool.and_eq_true, decide_eq_true_eq] at h
    obtain ⟨rfl, h2⟩ := h
    simpa using isPre_decomp n s h2

theorem splitFirst_decomp : ∀ (n s p q : List Char),
    splitFirst n s = some (p, q) → s = p ++ n ++ q
  | n, [], p, q, h => by
    by_cases hn : n.isEmpty = true
    · rw [List.isEmpty_iff.mp hn]
      simp only [splitFirst, List.isEmpty_iff.mp hn] at h
      simp at h
      simp [h.1, h.2]
    · simp only [splitFirst] at h
      rw [if_neg (by simpa using hn)] at h
      exact absurd h (by simp)
  | n, c :: t, p, q, h => by
    simp only [splitFirst] at h
    by_cases hp : isPre n (c :: t) = true
    · rw [if_pos hp] at h
      obtain ⟨h1, h2⟩ := Prod.mk.inj (Option.some.inj h)
      rw [← h1, ← h2]
      simpa using isPre_decomp n (c :: t) hp
    · rw [if_neg hp] at h
      cases hs : splitFirst n t with
      | none => rw [hs] at h; exact absurd h (by simp)
      | some pq =>
        obtain ⟨p', q'⟩ := pq
        rw [hs] at h
        obtain ⟨h1, h2⟩ := Prod.mk.inj (Option.some.inj h)
        have hd := splitFirst_decomp n t p' q' hs
        rw [← h1, ← h2, hd]
        simp

/-- A match found in the left part survives appending on the right. -/
theorem splitFirst_app_left : ∀ (n s z p q : List Char),
    splitFirst n s = some (p, q) → splitFirst n (s ++ z) = some (p, q ++ z)
  | n, [], z, p, q, h => by
    by_cases hn : n.isEmpty = true
    · rw [List.isEmpty_iff.mp hn] at h ⊢
      simp only [splitFirst] at h
      simp only [List.nil_append]
      obtain ⟨h1, h2⟩ := Prod.mk.inj (Option.some.inj h)
      rw [← h1, ← h2]
      cases z with
      | nil => rfl
      | cons c t => simp [splitFirst, isPre]
    · simp only [splitFirst] at h
      rw [if_neg (by simpa using hn)] at h
      exact absurd h (by simp)
  | n, c :: t, z, p, q, h => by
    simp only [splitFirst] at h
    by_cases hp : isPre n (c :: t) = true
    · rw [if_pos hp] at h
      obtain ⟨h1, h2⟩ := Prod.mk.inj (Option.some.inj h)
      have hle : n.length ≤ (c :: t).length := isPre_length _ _ hp
      have hdrop : List.drop n.length (c :: (t ++ z)) =
          List.drop n.length (c :: t) ++ z := by
        rw [← List.cons_append]
        exact List.drop_append_of_le_length hle
      rw [List.cons_append]
      simp only [splitFirst]
      rw [if_pos (show isPre n (c :: (t ++ z)) = true by
        simpa using isPre_append n (c :: t) z hp), hdrop]
      rw [← h1, ← h2]
    · rw [if_neg hp] at h
      cases hs : splitFirst n t with
      | none => rw [hs] at h; exact absurd h (by simp)
      | some pq =>
        obtain ⟨p', q'⟩ := pq
        rw [hs] at h
        obtain ⟨h1, h2⟩ := Prod.mk.inj (Option.some.inj h)
        have hd := splitFirst_decomp n t p' q' hs
        have hle : n.length ≤ t.length := by
          rw [hd]; simp; omega
        have hnp : isPre n (c :: (t ++ z)) = false := by
          by_contra hcon
          rw [Bool.not_eq_false] at hcon
          exact hp (isPre_of_append_le n (c :: t) z
            (by simpa using hcon) (by simpa using Nat.le_succ_of_le hle))
        rw [List.cons_append]
        simp only [splitFirst, hnp, Bool.false_eq_true, if_false]
        rw [splitFirst_app_left n t z p' q' hs]
        rw [← h1, ← h2]
        rfl

/-- No match anywhere means no suffix carries the needle as a prefix. -/
theorem splitFirst_none_noPre : ∀ (n s a b : List Char), n ≠ [] →
    splitFirst n s = none → s = a ++ b → isPre n b = false
  | n, s, [], b, hn, hnone, hab => by
    have hnone2 : splitFirst n b = none := by
      rw [show b = [] ++ b from rfl, ← hab]
      exact hnone
    cases b with
    | nil =>
      cases n with
      | nil => exact absurd rfl hn
      | cons x xs => rfl
    | cons c t =>
      simp only [splitFirst] at hnone2
      by_cases hp : isPre n (c :: t) = true
      · rw [if_pos hp] at hnone2; exact absurd hnone2 (by simp)
      · simpa using hp
  | n, s, x :: a, b, hn, hnone, hab => by
    subst hab
    rw [List.cons_append] at hnone
    simp only [splitFirst] at hnone
    by_cases hp : isPre n (x :: (a ++ b)) = true
    · rw [if_pos hp] at hnone; exact absurd hnone (by simp)
    · rw [if_neg hp] at hnone
      cases hs : splitFirst n (a ++ b) with
      | none => exact splitFirst_none_noPre n (a ++ b) a b hn hs rfl
      | some pq => rw [hs] at hnone; exact absurd hnone (by simp)

/-- When no match can start inside the left part (boundary spans included),
the first match of the whole is the first match of the right part. -/
theorem splitFirst_app_right : ∀ (n s z : List Char),
    (∀ a c b, s = a ++ c :: b → isPre n (c :: (b ++ z)) = false) →
    splitFirst n (s ++ z) =
      (splitFirst n z).map fun p => (s ++ p.1, p.2)
  | n, [], z, _ => by
    simp only [List.nil_append]
    cases hz : splitFirst n z with
    | none => rfl
    | some pq => rfl
  | n, c :: t, z, h => by
    have hc : isPre n (c :: (t ++ z)) = false := h [] c t rfl
    rw [List.cons_append]
    simp only [splitFirst, hc, Bool.false_eq_true, if_false]
    rw [splitFirst_app_right n t z (fun a d b hab => h (c :: a) d b (by rw [hab]; rfl))]
    cases hz : splitFirst n z with
    | none => rfl
    | some pq => rfl

/-! ## Trim lemmas -/

/-- The right-trim half of `jsTrim`. -/
def trimEnd (l : List Char) : List Char := (l.reverse.dropWhile isSpace).reverse

theorem jsTrim_as_trimEnd (l : List Char) :
    jsTrim l = trimEnd (l.dropWhile isSpace) := rfl

theorem trimEnd_cons (c : Char) (l : List Char) (h : isSpace c = false) :
    trimEnd (c :: l) = c :: trimEnd l := by
  unfold trimEnd
  rw [List.reverse_cons]
  by_cases he : l.reverse.dropWhile isSpace = []
  · rw [List.dropWhile_append]
    simp [he, List.dropWhile_cons, h]
  · rw [List.dropWhile_append]
    rw [if_neg (by simpa using he)]
    simp

theorem trimEnd_append_last (l : List Char) (d : Char) (h : isSpace d = false) :
    trimEnd (l ++ [d]) = l ++ [d] := by
  unfold trimEnd
  rw [List.reverse_append]
  simp [List.dropWhile_cons, h]

theorem trimEnd_append_nl (l : List Char) :
    trimEnd (l ++ ['\n']) = trimEnd l := by
  unfold trimEnd
  rw [List.reverse_append]
  simp [List.dropWhile_cons, show isSpace '\n' = true from rfl]

/-- The whole input is its own trim plus a whitespace-only suffix. -/
theorem trimEnd_decomp (l : List Char) : ∃ w, l = trimEnd l ++ w := by
  refine ⟨(l.reverse.takeWhile isSpace).reverse, ?_⟩
  unfold trimEnd
  rw [← List.reverse_append, List.takeWhile_append_dropWhile, List.reverse_reverse]

theorem jsTrim_cons_nl (l : List Char) : jsTrim ('\n' :: l) = jsTrim l := by
  unfold jsTrim
  rw [List.dropWhile_cons]
  simp [show isSpace '\n' = true from rfl]

theorem jsTrim_cons_nonspace (c : Char) (l : List Char) (h : isSpace c = false) :
    jsTrim (c :: l) = c :: trimEnd l := by
  rw [jsTrim_as_trimEnd, List.dropWhile_cons]
  simp only [h, Bool.false_eq_true, if_false]
  exact trimEnd_cons c l h

/-! ## Fuel monotonicity of the parser -/

/-- A successful parse is stable under extra fuel (all six mutual parsers). -/
theorem parse_mono : ∀ (f g : Nat), f ≤ g →
    (∀ s r, parseVal f s = some r → parseVal g s = some r) ∧
    (∀ s r, parseArrStart f s = some r → parseArrStart g s = some r) ∧
    (∀ s r, parseArrRest f s = some r → parseArrRest g s = some r) ∧
    (∀ s r, parseObjStart f s = some r → parseObjStart g s = some r) ∧
    (∀ s r, parsePair f s = some r → parsePair g s = some r) ∧
    (∀ s r, parseObjRest f s = some r → parseObjRest g s = some r)
  | 0, g, _ => by
    refine ⟨?_, ?_, ?_, ?_, ?_, ?_⟩ <;> intro s r h <;>
      exact absurd h (by
        simp [parseVal, parseArrStart, parseArrRest, parseObjStart, parsePair,
          parseObjRest])
  | f + 1, g, hle => by
    obtain ⟨g1, rfl⟩ : ∃ g1, g = g1 + 1 := ⟨g - 1, by omega⟩
    have ih := parse_mono f g1 (by omega)
    refine ⟨?_, ?_, ?_, ?_, ?_, ?_⟩
    · intro s r h
      simp only [parseVal] at h ⊢
      split at h
      · exact absurd h (by simp)
      · exact ih.2.2.2.1 _ _ h
      · exact ih.2.1 _ _ h
      · exact h
      · exact h
      · exact h
      · exact h
      · exact h
    · intro s r h
      simp only [parseArrStart] at h ⊢
      split at h
      · exact h
      · cases hv : parseVal f s with
        | none => simp only [hv] at h; exact absurd h (by simp)
        | some vr =>
          obtain ⟨v, r1⟩ := vr
          simp only [hv] at h
          simp only [ih.1 _ _ hv]
          cases hr : parseArrRest f r1 with
          | none => simp only [hr] at h; exact absurd h (by simp)
          | some vsr =>
            obtain ⟨vs, r2⟩ := vsr
            simp only [hr] at h
            simp only [ih.2.2.1 _ _ hr]
            exact h
    · intro s r h
      simp only [parseArrRest] at h ⊢
      split at h
      · exact h
      · rename_i r0 heq
        cases hv : parseVal f r0 with
        | none => simp only [hv] at h; exact absurd h (by simp)
        | some vr =>
          obtain ⟨v, r1⟩ := vr
          simp only [hv] at h
          simp only [ih.1 _ _ hv]
          cases hr : parseArrRest f r1 with
          | none => simp only [hr] at h; exact absurd h (by simp)
          | some vsr =>
            obtain ⟨vs, r2⟩ := vsr
            simp only [hr] at h
            simp only [ih.2.2.1 _ _ hr]
            exact h
      · exact absurd h (by simp)
    · intro s r h
      simp only [parseObjStart] at h ⊢
      split at h
      · exact h
      · cases hv : parsePair f s with
        | none => simp only [hv] at h; exact absurd h (by simp)
        | some kvr =>
          obtain ⟨kv, r1⟩ := kvr
          simp only [hv] at h
          simp only [ih.2.2.2.2.1 _ _ hv]
          cases hr : parseObjRest f r1 with
          | none => simp only [hr] at h; exact absurd h (by simp)
          | some msr =>
            obtain ⟨ms, r2⟩ := msr
            simp only [hr] at h
            simp only [ih.2.2.2.2.2 _ _ hr]
            exact h
    · intro s r h
      simp only [parsePair] at h ⊢
      split at h
      · split at h
        · exact absurd h (by simp)
        · split at h
          · rename_i r2 heq2
            cases hv : parseVal f r2 with
            | none => simp only [hv] at h; exact absurd h (by simp)
            | some vr =>
              obtain ⟨v, r3⟩ := vr
              simp only [hv] at h
              simp only [ih.1 _ _ hv]
              exact h
          · exact absurd h (by simp)
      · exact absurd h (by simp)
    · intro s r h
      simp only [parseObjRest] at h ⊢
      split at h
      · exact h
      · rename_i r0 heq
        cases hv : parsePair f r0 with
        | none => simp only [hv] at h; exact absurd h (by simp)
        | some kvr =>
          obtain ⟨kv, r1⟩ := kvr
          simp only [hv] at h
          simp only [ih.2.2.2.2.1 _ _ hv]
          cases hr : parseObjRest f r1 with
          | none => simp only [hr] at h; exact absurd h (by simp)
          | some msr =>
            obtain ⟨ms, r2⟩ := msr
            simp only [hr] at h
            simp only [ih.2.2.2.2.2 _ _ hr]
            exact h
      · exact absurd h (by simp)

/-! ## Frame lemmas: a parse that does not consume the whole input is stable
under appending more text -/

theorem eatWs_append : ∀ (s z : List Char) (c : Char) (t : List Char),
    eatWs s = c :: t → eatWs (s ++ z) = c :: (t ++ z)
  | [], z, c, t, h => by simp [eatWs] at h
  | a :: s, z, c, t, h => by
    simp only [eatWs] at h
    by_cases ha : isJsonWs a = true
    · rw [if_pos ha] at h
      rw [List.cons_append]
      simp only [eatWs, ha, if_true]
      exact eatWs_append s z c t h
    · rw [if_neg ha] at h
      obtain ⟨rfl, rfl⟩ := List.cons.inj h
      rw [List.cons_append]
      simp only [eatWs, ha, Bool.false_eq_true, if_false]

theorem strTail_backslash (e : Char) (r : List Char) (he : e ≠ 'u') :
    strTail ('\\' :: e :: r) =
      (match unescapeCh e with
       | some c => (strTail r).map fun p => (c :: p.1, p.2)
       | none => none) := by
  rw [strTail.eq_def]
  split
  · rename_i heq
    exact absurd heq (by simp)
  · rename_i r2 heq
    exact absurd (List.cons.inj heq).1 (by decide)
  · rename_i h1 h2 h3 h4 r2 heq
    exact absurd (List.cons.inj (List.cons.inj heq).2).1 he
  · rename_i e2 r2 heq
    obtain ⟨he1, he2⟩ := List.cons.inj heq
    obtain ⟨he3, he4⟩ := List.cons.inj he2
    rw [he3, he4]
  · rename_i c2 r2 g1 g2 g3 heq
    obtain ⟨he1, he2⟩ := List.cons.inj heq
    exact absurd (g3 e r he1.symm he2.symm) (fun x => x)

theorem strTail_other (c : Char) (r : List Char) (h1 : c ≠ '"') (h2 : c ≠ '\\') :
    strTail (c :: r) =
      (if c.toNat < 32 then none
       else (strTail r).map fun p => (c :: p.1, p.2)) := by
  rw [strTail.eq_def]
  split
  · rename_i heq
    exact absurd heq (by simp)
  · rename_i r2 heq
    exact absurd (List.cons.inj heq).1 h1
  · rename_i a b c3 d r2 heq
    exact absurd (List.cons.inj heq).1 h2
  · rename_i e2 r2 heq
    exact absurd (List.cons.inj heq).1 h2
  · rename_i c2 r2 g1 g2 g3 heq
    obtain ⟨he1, he2⟩ := List.cons.inj heq
    rw [← he1, ← he2]

theorem strTail_frame : ∀ (s z t r : List Char),
    strTail s = some (t, r) → strTail (s ++ z) = some (t, r ++ z) := by
  intro s
  induction s using strTail.induct with
  | case1 =>
    intro z t r h
    simp [strTail] at h
  | case2 r0 =>
    intro z t r h
    simp only [strTail, Option.some.injEq] at h
    obtain ⟨h1, h2⟩ := Prod.mk.inj h
    rw [List.cons_append]
    simp only [strTail, ← h1, ← h2]
  | case3 a b c d e va vb vc vd hd hc hb ha ih =>
    intro z t r h
    simp only [strTail, ha, hb, hc, hd] at h
    rw [show ('\\' :: 'u' :: a :: b :: c :: d :: e) ++ z =
      '\\' :: 'u' :: a :: b :: c :: d :: (e ++ z) from rfl]
    simp only [strTail, ha, hb, hc, hd]
    cases hs : strTail e with
    | none => rw [hs] at h; simp at h
    | some pr =>
      obtain ⟨cs, r2⟩ := pr
      rw [hs] at h
      simp only [Option.map_some'] at h
      obtain ⟨h1, h2⟩ := Prod.mk.inj (Option.some.inj h)
      rw [ih z cs r2 hs]
      simp only [Option.map_some', ← h1, ← h2]
  | case4 a b c d e hnone =>
    intro z t r h
    exfalso
    simp only [strTail] at h
    cases hva : hexVal a with
    | none => simp [hva] at h
    | some va =>
      cases hvb : hexVal b with
      | none => simp [hva, hvb] at h
      | some vb =>
        cases hvc : hexVal c with
        | none => simp [hva, hvb, hvc] at h
        | some vc =>
          cases hvd : hexVal d with
          | none => simp [hva, hvb, hvc, hvd] at h
          | some vd => exact hnone va vb vc vd hva hvb hvc hvd
  | case5 e r0 hne c0 huc ih =>
    intro z t r h
    have he : e ≠ 'u' := by
      intro hEq
      subst hEq
      simp [unescapeCh] at huc
    rw [strTail_backslash e r0 he, huc] at h
    rw [show ('\\' :: e :: r0) ++ z = '\\' :: e :: (r0 ++ z) from rfl,
      strTail_backslash e (r0 ++ z) he, huc]
    cases hs : strTail r0 with
    | none => rw [hs] at h; simp at h
    | some pr =>
      obtain ⟨cs, r2⟩ := pr
      rw [hs] at h
      simp only [Option.map_some'] at h
      obtain ⟨h1, h2⟩ := Prod.mk.inj (Option.some.inj h)
      rw [ih z cs r2 hs]
      simp only [Option.map_some', ← h1, ← h2]
  | case6 e r0 hne huc =>
    intro z t r h
    exfalso
    by_cases he : e = 'u'
    · subst he
      cases r0 with
      | nil => simp [strTail, unescapeCh] at h
      | cons a1 t1 =>
        cases t1 with
        | nil => simp [strTail, unescapeCh] at h
        | cons a2 t2 =>
          cases t2 with
          | nil => simp [strTail, unescapeCh] at h
          | cons a3 t3 =>
            cases t3 with
            | nil => simp [strTail, unescapeCh] at h
            | cons a4 t4 => exact hne a1 a2 a3 a4 t4 rfl rfl
    · rw [strTail_backslash e r0 he, huc] at h
      simp at h
  | case7 c0 r0 g1 g2 g3 hlt =>
    intro z t r h
    exfalso
    have hq : c0 ≠ '"' := fun hx => g1 hx
    have hbs : c0 ≠ '\\' := by
      intro hx
      subst hx
      exact absurd hlt (by decide)
    rw [strTail_other c0 r0 hq hbs, if_pos hlt] at h
    simp at h
  | case8 c0 r0 g1 g2 g3 hge ih =>
    intro z t r h
    have hq : c0 ≠ '"' := fun hx => g1 hx
    by_cases hbs : c0 = '\\'
    · subst hbs
      exfalso
      cases r0 with
      | nil => simp [strTail] at h
      | cons e rr => exact g3 e rr rfl rfl
    · rw [strTail_other c0 r0 hq hbs, if_neg hge] at h
      rw [List.cons_append, strTail_other c0 (r0 ++ z) hq hbs, if_neg hge]
      cases hs : strTail r0 with
      | none => rw [hs] at h; simp at h
      | some pr =>
        obtain ⟨cs, r2⟩ := pr
        rw [hs] at h
        simp only [Option.map_some'] at h
        obtain ⟨h1, h2⟩ := Prod.mk.inj (Option.some.inj h)
        rw [ih z cs r2 hs]
        simp only [Option.map_some', ← h1, ← h2]

theorem grabDigits_frame : ∀ (s z ds r : List Char),
    grabDigits s = (ds, r) → r ≠ [] → grabDigits (s ++ z) = (ds, r ++ z)
  | [], z, ds, r, h, hr => by
    simp only [grabDigits] at h
    exact absurd (Prod.mk.inj h).2.symm hr
  | c :: t, z, ds, r, h, hr => by
    simp only [grabDigits] at h
    by_cases hd : isDigitCh c = true
    · rw [if_pos hd] at h
      obtain ⟨h1, h2⟩ := Prod.mk.inj h
      have hr2 : (grabDigits t).2 ≠ [] := by rw [h2]; exact hr
      have hIH := grabDigits_frame t z (grabDigits t).1 (grabDigits t).2 rfl hr2
      rw [List.cons_append]
      simp only [grabDigits, hd, if_true, hIH]
      rw [← h1, ← h2]
    · rw [if_neg hd] at h
      obtain ⟨h1, h2⟩ := Prod.mk.inj h
      rw [List.cons_append]
      simp only [grabDigits, hd, Bool.false_eq_true, if_false]
      rw [← h1, ← h2]
      rfl


theorem numExpDigits_frame (q : ℚ) (eneg : Bool) (r1 z : List Char) (p : ℚ)
    (r : List Char) (h : numExpDigits q eneg r1 = some (p, r)) (hr : r ≠ []) :
    numExpDigits q eneg (r1 ++ z) = some (p, r ++ z) := by
  simp only [numExpDigits] at h ⊢
  split at h
  · exact absurd h (by simp)
  · rename_i x es s4 hg heq
    obtain ⟨h1, h2⟩ := Prod.mk.inj (Option.some.inj h)
    have hs4 : s4 ≠ [] := by rw [h2]; exact hr
    rw [grabDigits_frame r1 z es s4 heq hs4]
    split
    · rename_i heq2
      exact absurd (Prod.mk.inj heq2).1 (fun he => hg he)
    · rename_i x2 es2 s42 hg2 heq2
      obtain ⟨he1, he2⟩ := Prod.mk.inj heq2
      rw [← h1, ← h2, ← he1, ← he2]

theorem numExpSign_frame (q : ℚ) (r0 z : List Char) (p : ℚ) (r : List Char)
    (h : numExpSign q r0 = some (p, r)) (hr : r ≠ []) :
    numExpSign q (r0 ++ z) = some (p, r ++ z) := by
  cases r0 with
  | nil =>
    exact absurd h (by simp [numExpSign, numExpDigits, grabDigits])
  | cons c t =>
    rw [List.cons_append]
    simp only [numExpSign] at h ⊢
    by_cases hc1 : c = '+'
    · rw [if_pos hc1] at h ⊢
      exact numExpDigits_frame q false t z p r h hr
    · rw [if_neg hc1] at h ⊢
      by_cases hc2 : c = '-'
      · rw [if_pos hc2] at h ⊢
        exact numExpDigits_frame q true t z p r h hr
      · rw [if_neg hc2] at h ⊢
        rw [show c :: (t ++ z) = (c :: t) ++ z from rfl]
        exact numExpDigits_frame q false (c :: t) z p r h hr

theorem numExp_frame (q : ℚ) (s3 z : List Char) (p : ℚ) (r : List Char)
    (h : numExp q s3 = some (p, r)) (hr : r ≠ []) :
    numExp q (s3 ++ z) = some (p, r ++ z) := by
  cases s3 with
  | nil =>
    simp only [numExp, Option.some.injEq] at h
    exact absurd (Prod.mk.inj h).2.symm hr
  | cons c t =>
    rw [List.cons_append]
    simp only [numExp] at h ⊢
    by_cases hc : (c = 'e' || c = 'E') = true
    · rw [if_pos hc] at h ⊢
      exact numExpSign_frame q t z p r h hr
    · rw [if_neg hc] at h ⊢
      obtain ⟨h1, h2⟩ := Prod.mk.inj (Option.some.inj h)
      rw [← h1, ← h2]
      rfl

theorem numFrac_frame (iv : ℚ) (s2 z : List Char) (p : ℚ) (r : List Char)
    (h : numFrac iv s2 = some (p, r)) (hr : r ≠ []) :
    numFrac iv (s2 ++ z) = some (p, r ++ z) := by
  cases s2 with
  | nil =>
    simp only [numFrac, Option.some.injEq] at h
    exact absurd (Prod.mk.inj h).2.symm hr
  | cons c t =>
    rw [List.cons_append]
    simp only [numFrac] at h ⊢
    by_cases hc : c = '.'
    · rw [if_pos hc] at h ⊢
      split at h
      · exact absurd h (by simp)
      · rename_i x fs s3 hg heq
        obtain ⟨h1, h2⟩ := Prod.mk.inj (Option.some.inj h)
        have hs3 : s3 ≠ [] := by rw [h2]; exact hr
        rw [grabDigits_frame t z fs s3 heq hs3]
        split
        · rename_i heq2
          exact absurd (Prod.mk.inj heq2).1 (fun he => hg he)
        · rename_i x2 fs2 s32 hg2 heq2
          obtain ⟨he1, he2⟩ := Prod.mk.inj heq2
          rw [← h1, ← h2, ← he1, ← he2]
    · rw [if_neg hc] at h ⊢
      obtain ⟨h1, h2⟩ := Prod.mk.inj (Option.some.inj h)
      rw [← h1, ← h2]
      rfl

theorem numAfterSign_frame (neg : Bool) (s1 z : List Char) (p : ℚ)
    (r : List Char) (h : numAfterSign neg s1 = some (p, r)) (hr : r ≠ []) :
    numAfterSign neg (s1 ++ z) = some (p, r ++ z) := by
  simp only [numAfterSign] at h ⊢
  split at h
  · exact absurd h (by simp)
  · rename_i x d ds s2 heq
    have hs2 : s2 ≠ [] := by
      intro he
      subst he
      by_cases hz : (d = '0' && !ds.isEmpty) = true
      · rw [if_pos hz] at h; exact absurd h (by simp)
      · rw [if_neg hz] at h
        simp only [numFrac, numExp, Option.some.injEq] at h
        exact hr (Prod.mk.inj h).2.symm
    rw [grabDigits_frame s1 z (d :: ds) s2 heq hs2]
    split
    · rename_i heq2
      exact absurd (Prod.mk.inj heq2).1 (by simp)
    · rename_i x2 d2 ds2 s22 heq2
      obtain ⟨he1, he2⟩ := Prod.mk.inj heq2
      obtain ⟨hd2, hds2⟩ := List.cons.inj he1
      rw [← hd2, ← hds2, ← he2]
      by_cases hz : (d = '0' && !ds.isEmpty) = true
      · rw [if_pos hz] at h; exact absurd h (by simp)
      · rw [if_neg hz] at h ⊢
        cases hnf : numFrac (digitsVal (d :: ds) : ℚ) s2 with
        | none => rw [hnf] at h; exact absurd h (by simp)
        | some ms =>
          obtain ⟨m, s3⟩ := ms
          rw [hnf] at h
          have hs3 : s3 ≠ [] := by
            intro he
            subst he
            simp only [numExp, Option.some.injEq] at h
            exact hr (Prod.mk.inj h).2.symm
          rw [numFrac_frame (digitsVal (d :: ds) : ℚ) s2 z m s3 hnf hs3]
          exact numExp_frame _ s3 z p r h hr

theorem parseNumCore_frame (s z : List Char) (p : ℚ) (r : List Char)
    (h : parseNumCore s = some (p, r)) (hr : r ≠ []) :
    parseNumCore (s ++ z) = some (p, r ++ z) := by
  cases s with
  | nil => exact absurd h (by simp [parseNumCore, numAfterSign, grabDigits])
  | cons c t =>
    rw [List.cons_append]
    simp only [parseNumCore] at h ⊢
    by_cases hc : c = '-'
    · rw [if_pos hc] at h ⊢
      exact numAfterSign_frame true t z p r h hr
    · rw [if_neg hc] at h ⊢
      rw [show c :: (t ++ z) = (c :: t) ++ z from rfl]
      exact numAfterSign_frame false (c :: t) z p r h hr

/-- A successful value parse never starts at the end of input. -/
theorem parseVal_eatWs_cons (f : Nat) (s : List Char) (x : JsonVal × List Char)
    (h : parseVal f s = some x) : ∃ c t, eatWs s = c :: t := by
  cases f with
  | zero => exact absurd h (by simp [parseVal])
  | succ f1 =>
    simp only [parseVal] at h
    split at h
    · exact absurd h (by simp)
    · rename_i r0 heq; exact ⟨_, _, heq⟩
    · rename_i r0 heq; exact ⟨_, _, heq⟩
    · rename_i r0 heq; exact ⟨_, _, heq⟩
    · rename_i r0 heq; exact ⟨_, _, heq⟩
    · rename_i r0 heq; exact ⟨_, _, heq⟩
    · rename_i r0 heq; exact ⟨_, _, heq⟩
    · rename_i c0 r0 heq; exact ⟨_, _, heq⟩

/-- A successful array-continuation parse starts at a bracket or comma, hence
not at the end of input. -/
theorem parseArrRest_ne_nil (f : Nat) (s : List Char) (x : List JsonVal × List Char)
    (h : parseArrRest f s = some x) : s ≠ [] := by
  intro hnil
  subst hnil
  cases f with
  | zero => simp [parseArrRest] at h
  | succ f1 => simp [parseArrRest, eatWs] at h

/-- A successful object-continuation parse starts at a brace or comma, hence
not at the end of input. -/
theorem parseObjRest_ne_nil (f : Nat) (s : List Char) (x : List (List Char × JsonVal) × List Char)
    (h : parseObjRest f s = some x) : s ≠ [] := by
  intro hnil
  subst hnil
  cases f with
  | zero => simp [parseObjRest] at h
  | succ f1 => simp [parseObjRest, eatWs] at h

/-- A successful member parse starts at a quote. -/
theorem parsePair_eatWs_cons (f : Nat) (s : List Char) (x : (List Char × JsonVal) × List Char)
    (h : parsePair f s = some x) : ∃ t, eatWs s = '"' :: t := by
  cases f with
  | zero => exact absurd h (by simp [parsePair])
  | succ f1 =>
    simp only [parsePair] at h
    split at h
    · rename_i r0 heq; exact ⟨r0, heq⟩
    · exact absurd h (by simp)

/-- A parse that leaves a nonempty rest is stable under appending more input:
the same value is produced and the appended text lands in the rest. -/
theorem parse_frame : ∀ (f : Nat),
    (∀ s v r z, parseVal f s = some (v, r) → r ≠ [] →
      parseVal f (s ++ z) = some (v, r ++ z)) ∧
    (∀ s v r z, parseArrStart f s = some (v, r) →
      parseArrStart f (s ++ z) = some (v, r ++ z)) ∧
    (∀ s vs r z, parseArrRest f s = some (vs, r) →
      parseArrRest f (s ++ z) = some (vs, r ++ z)) ∧
    (∀ s v r z, parseObjStart f s = some (v, r) →
      parseObjStart f (s ++ z) = some (v, r ++ z)) ∧
    (∀ s kv r z, parsePair f s = some (kv, r) → r ≠ [] →
      parsePair f (s ++ z) = some (kv, r ++ z)) ∧
    (∀ s ms r z, parseObjRest f s = some (ms, r) →
      parseObjRest f (s ++ z) = some (ms, r ++ z))
  | 0 => by
    refine ⟨fun s v r z h hr => ?_, fun s v r z h => ?_, fun s vs r z h => ?_,
      fun s v r z h => ?_, fun s kv r z h hr => ?_, fun s ms r z h => ?_⟩ <;>
      exact absurd h (by
        simp [parseVal, parseArrStart, parseArrRest, parseObjStart, parsePair,
          parseObjRest])
  | f + 1 => by
    have IH := parse_frame f
    refine ⟨?_, ?_, ?_, ?_, ?_, ?_⟩
    · -- parseVal
      intro s v r z h hr
      simp only [parseVal] at h ⊢
      split at h
      · exact absurd h (by simp)
      · rename_i r0 heq
        rw [eatWs_append s z '{' r0 heq]
        show parseObjStart f (r0 ++ z) = some (v, r ++ z)
        exact IH.2.2.2.1 r0 v r z h
      · rename_i r0 heq
        rw [eatWs_append s z '[' r0 heq]
        show parseArrStart f (r0 ++ z) = some (v, r ++ z)
        exact IH.2.1 r0 v r z h
      · rename_i r0 heq
        rw [eatWs_append s z '"' r0 heq]
        show (strTail (r0 ++ z)).map (fun p => (JsonVal.str p.1, p.2)) = some (v, r ++ z)
        cases hs : strTail r0 with
        | none => rw [hs] at h; exact absurd h (by simp)
        | some pr =>
          obtain ⟨t1, r1⟩ := pr
          rw [hs] at h
          simp only [Option.map_some', Option.some.injEq, Prod.mk.injEq] at h
          rw [strTail_frame r0 z t1 r1 hs]
          simp only [Option.map_some', Option.some.injEq, Prod.mk.injEq]
          exact ⟨h.1, by rw [h.2]⟩
      · rename_i r0 heq
        rw [eatWs_append s z 't' ('r' :: 'u' :: 'e' :: r0) heq]
        show some (JsonVal.bool true, r0 ++ z) = some (v, r ++ z)
        simp only [Option.some.injEq, Prod.mk.injEq] at h ⊢
        exact ⟨h.1, by rw [h.2]⟩
      · rename_i r0 heq
        rw [eatWs_append s z 'f' ('a' :: 'l' :: 's' :: 'e' :: r0) heq]
        show some (JsonVal.bool false, r0 ++ z) = some (v, r ++ z)
        simp only [Option.some.injEq, Prod.mk.injEq] at h ⊢
        exact ⟨h.1, by rw [h.2]⟩
      · rename_i r0 heq
        rw [eatWs_append s z 'n' ('u' :: 'l' :: 'l' :: r0) heq]
        show some (JsonVal.null, r0 ++ z) = some (v, r ++ z)
        simp only [Option.some.injEq, Prod.mk.injEq] at h ⊢
        exact ⟨h.1, by rw [h.2]⟩
      · rename_i c0 r0 g1 g2 g3 g4 g5 g6 heq
        by_cases hc : (c0 = '-' || isDigitCh c0) = true
        · rw [if_pos hc] at h
          cases hpc : parseNumCore (c0 :: r0) with
          | none => rw [hpc] at h; exact absurd h (by simp)
          | some pq =>
            obtain ⟨q, rq⟩ := pq
            rw [hpc] at h
            simp only [Option.map_some', Option.some.injEq, Prod.mk.injEq] at h
            have hrq : rq ≠ [] := by rw [h.2]; exact hr
            have hpc2 := parseNumCore_frame (c0 :: r0) z q rq hpc hrq
            rw [List.cons_append] at hpc2
            rw [eatWs_append s z c0 r0 heq]
            split
            · next heq3 => exact absurd heq3 (by simp)
            · next r3 heq3 =>
              have : c0 = '{' := (List.cons.inj heq3).1
              subst this
              exact absurd hc (by decide)
            · next r3 heq3 =>
              have : c0 = '[' := (List.cons.inj heq3).1
              subst this
              exact absurd hc (by decide)
            · next r3 heq3 =>
              have : c0 = '"' := (List.cons.inj heq3).1
              subst this
              exact absurd hc (by decide)
            · next r3 heq3 =>
              have : c0 = 't' := (List.cons.inj heq3).1
              subst this
              exact absurd hc (by decide)
            · next r3 heq3 =>
              have : c0 = 'f' := (List.cons.inj heq3).1
              subst this
              exact absurd hc (by decide)
            · next r3 heq3 =>
              have : c0 = 'n' := (List.cons.inj heq3).1
              subst this
              exact absurd hc (by decide)
            · next c2 r2 heq3 =>
              obtain ⟨h1, h2⟩ := List.cons.inj heq3
              subst h1
              subst h2
              rw [if_pos hc, hpc2]
              simp only [Option.map_some', Option.some.injEq, Prod.mk.injEq]
              exact ⟨by rw [h.1], by rw [h.2]⟩
        · rw [if_neg hc] at h
          exact absurd h (by simp)
    · -- parseArrStart
      intro s v r z h
      simp only [parseArrStart] at h ⊢
      split at h
      · rename_i r0 heq
        rw [eatWs_append s z ']' r0 heq]
        show some (JsonVal.arr [], r0 ++ z) = some (v, r ++ z)
        simp only [Option.some.injEq, Prod.mk.injEq] at h ⊢
        exact ⟨h.1, by rw [h.2]⟩
      · rename_i hg
        cases hv : parseVal f s with
        | none => simp only [hv] at h; exact absurd h (by simp)
        | some vr =>
          obtain ⟨v1, r1⟩ := vr
          simp only [hv] at h
          cases hrr : parseArrRest f r1 with
          | none => simp only [hrr] at h; exact absurd h (by simp)
          | some vsr =>
            obtain ⟨vs, r2⟩ := vsr
            simp only [hrr] at h
            obtain ⟨c0, t0, hc⟩ := parseVal_eatWs_cons f s (v1, r1) hv
            have hr1 : r1 ≠ [] := parseArrRest_ne_nil f r1 (vs, r2) hrr
            have hv2 := IH.1 s v1 r1 z hv hr1
            have hrr2 := IH.2.2.1 r1 vs r2 z hrr
            rw [eatWs_append s z c0 t0 hc]
            split
            · next r3 heq3 =>
              have : c0 = ']' := (List.cons.inj heq3).1
              subst this
              exact absurd hc (hg t0)
            · simp only [hv2, hrr2]
              simp only [Option.some.injEq, Prod.mk.injEq] at h ⊢
              exact ⟨h.1, by rw [h.2]⟩
    · -- parseArrRest
      intro s vs r z h
      simp only [parseArrRest] at h ⊢
      split at h
      · rename_i r0 heq
        rw [eatWs_append s z ']' r0 heq]
        show some (([] : List JsonVal), r0 ++ z) = some (vs, r ++ z)
        simp only [Option.some.injEq, Prod.mk.injEq] at h ⊢
        exact ⟨h.1, by rw [h.2]⟩
      · rename_i r0 heq
        cases hv : parseVal f r0 with
        | none => simp only [hv] at h; exact absurd h (by simp)
        | some vr =>
          obtain ⟨v1, r1⟩ := vr
          simp only [hv] at h
          cases hrr : parseArrRest f r1 with
          | none => simp only [hrr] at h; exact absurd h (by simp)
          | some vsr =>
            obtain ⟨vs2, r2⟩ := vsr
            simp only [hrr] at h
            have hr1 : r1 ≠ [] := parseArrRest_ne_nil f r1 (vs2, r2) hrr
            have hv2 := IH.1 r0 v1 r1 z hv hr1
            have hrr2 := IH.2.2.1 r1 vs2 r2 z hrr
            rw [eatWs_append s z ',' r0 heq]
            split
            · next r3 heq3 => exact absurd (List.cons.inj heq3).1 (by decide)
            · next r3 heq3 =>
              obtain ⟨h1, h2⟩ := List.cons.inj heq3
              subst h2
              simp only [hv2, hrr2]
              simp only [Option.some.injEq, Prod.mk.injEq] at h ⊢
              exact ⟨h.1, by rw [h.2]⟩
            · next hg1 hg2 => exact absurd rfl (hg2 (r0 ++ z))
      · exact absurd h (by simp)
    · -- parseObjStart
      intro s v r z h
      simp only [parseObjStart] at h ⊢
      split at h
      · rename_i r0 heq
        rw [eatWs_append s z '}' r0 heq]
        show some (JsonVal.obj [], r0 ++ z) = some (v, r ++ z)
        simp only [Option.some.injEq, Prod.mk.injEq] at h ⊢
        exact ⟨h.1, by rw [h.2]⟩
      · cases hv : parsePair f s with
        | none => simp only [hv] at h; exact absurd h (by simp)
        | some kvr =>
          obtain ⟨kv1, r1⟩ := kvr
          simp only [hv] at h
          cases hrr : parseObjRest f r1 with
          | none => simp only [hrr] at h; exact absurd h (by simp)
          | some msr =>
            obtain ⟨ms, r2⟩ := msr
            simp only [hrr] at h
            obtain ⟨t0, hc⟩ := parsePair_eatWs_cons f s (kv1, r1) hv
            have hr1 : r1 ≠ [] := parseObjRest_ne_nil f r1 (ms, r2) hrr
            have hv2 := IH.2.2.2.2.1 s kv1 r1 z hv hr1
            have hrr2 := IH.2.2.2.2.2 r1 ms r2 z hrr
            rw [eatWs_append s z '"' t0 hc]
            split
            · next r3 heq3 => exact absurd (List.cons.inj heq3).1 (by decide)
            · simp only [hv2, hrr2]
              simp only [Option.some.injEq, Prod.mk.injEq] at h ⊢
              exact ⟨h.1, by rw [h.2]⟩
    · -- parsePair
      intro s kv r z h hr
      simp only [parsePair] at h ⊢
      split at h
      · rename_i r0 heq
        rw [eatWs_append s z '"' r0 heq]
        split at h
        · exact absurd h (by simp)
        · rename_i key r1 hs
          split at h
          · rename_i r2 heq2
            cases hv : parseVal f r2 with
            | none => simp only [hv] at h; exact absurd h (by simp)
            | some vr =>
              obtain ⟨v1, r3⟩ := vr
              simp only [hv] at h
              simp only [Option.some.injEq, Prod.mk.injEq] at h
              have hr3 : r3 ≠ [] := by
                intro hn
                exact hr (by rw [← h.2, hn])
              have hv2 := IH.1 r2 v1 r3 z hv hr3
              split
              · next r4 heq4 =>
                obtain ⟨h1, h2⟩ := List.cons.inj heq4
                subst h2
                simp only [strTail_frame r0 z key r1 hs]
                rw [eatWs_append r1 z ':' r2 heq2]
                split
                · next r5 heq5 =>
                  obtain ⟨h3, h4⟩ := List.cons.inj heq5
                  subst h4
                  rw [hv2]
                  simp only [Option.some.injEq, Prod.mk.injEq]
                  exact ⟨by rw [h.1], by rw [h.2]⟩
                · next hg1 => exact absurd rfl (hg1 (r2 ++ z))
              · next hg1 => exact absurd rfl (hg1 (r0 ++ z))
          · exact absurd h (by simp)
      · exact absurd h (by simp)
    · -- parseObjRest
      intro s ms r z h
      simp only [parseObjRest] at h ⊢
      split at h
      · rename_i r0 heq
        rw [eatWs_append s z '}' r0 heq]
        show some (([] : List (List Char × JsonVal)), r0 ++ z) = some (ms, r ++ z)
        simp only [Option.some.injEq, Prod.mk.injEq] at h ⊢
        exact ⟨h.1, by rw [h.2]⟩
      · rename_i r0 heq
        cases hv : parsePair f r0 with
        | none => simp only [hv] at h; exact absurd h (by simp)
        | some kvr =>
          obtain ⟨kv1, r1⟩ := kvr
          simp only [hv] at h
          cases hrr : parseObjRest f r1 with
          | none => simp only [hrr] at h; exact absurd h (by simp)
          | some msr =>
            obtain ⟨ms2, r2⟩ := msr
            simp only [hrr] at h
            have hr1 : r1 ≠ [] := parseObjRest_ne_nil f r1 (ms2, r2) hrr
            have hv2 := IH.2.2.2.2.1 r0 kv1 r1 z hv hr1
            have hrr2 := IH.2.2.2.2.2 r1 ms2 r2 z hrr
            rw [eatWs_append s z ',' r0 heq]
            split
            · next r3 heq3 => exact absurd (List.cons.inj heq3).1 (by decide)
            · next r3 heq3 =>
              obtain ⟨h1, h2⟩ := List.cons.inj heq3
              subst h2
              simp only [hv2, hrr2]
              simp only [Option.some.injEq, Prod.mk.injEq] at h ⊢
              exact ⟨h.1, by rw [h.2]⟩
            · next hg1 hg2 => exact absurd rfl (hg2 (r0 ++ z))
      · exact absurd h (by simp)

/-- The object-content parser only produces object values. -/
theorem parseObjStart_isObj (f : Nat) (s : List Char) (v : JsonVal) (r : List Char)
    (h : parseObjStart f s = some (v, r)) : ∃ ms, v = JsonVal.obj ms := by
  cases f with
  | zero => exact absurd h (by simp [parseObjStart])
  | succ f1 =>
    simp only [parseObjStart] at h
    split at h
    · exact ⟨[], (Prod.mk.inj (Option.some.inj h)).1.symm⟩
    · cases hv : parsePair f1 s with
      | none => simp only [hv] at h; exact absurd h (by simp)
      | some kvr =>
        obtain ⟨kv1, r1⟩ := kvr
        simp only [hv] at h
        cases hrr : parseObjRest f1 r1 with
        | none => simp only [hrr] at h; exact absurd h (by simp)
        | some msr =>
          obtain ⟨ms, r2⟩ := msr
          simp only [hrr] at h
          exact ⟨kv1 :: ms, (Prod.mk.inj (Option.some.inj h)).1.symm⟩

/-- A parse producing an array value is stable under appending even when it
consumed the whole input: arrays end at their closing bracket. -/
theorem parseVal_arr_frame (f : Nat) (s : List Char) (xs : List JsonVal) (r z : List Char)
    (h : parseVal f s = some (JsonVal.arr xs, r)) :
    parseVal f (s ++ z) = some (JsonVal.arr xs, r ++ z) := by
  cases f with
  | zero => exact absurd h (by simp [parseVal])
  | succ f1 =>
    simp only [parseVal] at h ⊢
    split at h
    · exact absurd h (by simp)
    · obtain ⟨ms, hms⟩ := parseObjStart_isObj f1 _ _ r h
      exact absurd hms (by simp)
    · rename_i r0 heq
      rw [eatWs_append s z '[' r0 heq]
      show parseArrStart f1 (r0 ++ z) = some (JsonVal.arr xs, r ++ z)
      exact (parse_frame f1).2.1 r0 (JsonVal.arr xs) r z h
    · rename_i r0 heq
      cases hs : strTail r0 with
      | none => rw [hs] at h; exact absurd h (by simp)
      | some pr =>
        obtain ⟨t1, r1⟩ := pr
        rw [hs] at h
        simp at h
    · rename_i r0 heq; simp at h
    · rename_i r0 heq; simp at h
    · rename_i r0 heq; simp at h
    · rename_i c0 r0 g1 g2 g3 g4 g5 g6 heq
      by_cases hc : (c0 = '-' || isDigitCh c0) = true
      · rw [if_pos hc] at h
        cases hpc : parseNumCore (c0 :: r0) with
        | none => rw [hpc] at h; exact absurd h (by simp)
        | some pq =>
          obtain ⟨q, rq⟩ := pq
          rw [hpc] at h
          simp at h
      · rw [if_neg hc] at h; exact absurd h (by simp)

/-- A successful array strategy means the whole text parsed as an array. -/
theorem tryParseArr_parseTop (p : List Char) (xs : List JsonVal)
    (h : tryParseArr p = some xs) : parseTop p = some (JsonVal.arr xs) := by
  unfold tryParseArr at h
  split at h
  · rename_i ys heq
    rw [heq, Option.some.inj h]
  · exact absurd h (by simp)

/-- A successful whole-text parse comes from a successful value parse. -/
theorem parseTop_val (p : List Char) (v : JsonVal) (h : parseTop p = some v) :
    ∃ r, parseVal (2 * p.length + 4) p = some (v, r) := by
  unfold parseTop at h
  split at h
  · rename_i v1 r heq
    by_cases he : (eatWs r).isEmpty = true
    · rw [if_pos he] at h
      exact ⟨r, by rw [heq, Option.some.inj h]⟩
    · rw [if_neg he] at h
      exact absurd h (by simp)
  · exact absurd h (by simp)

/-- No strict prefix of a serialized question array parses as an array:
the strategies cannot succeed on a truncated copy of the payload. -/
theorem no_prefix_parse (qs : List RawQuestion) (p zz : List Char)
    (hdec : serQs qs = p ++ zz) (hz : zz ≠ []) : tryParseArr p = none := by
  cases htp : tryParseArr p with
  | none => rfl
  | some xs =>
    exfalso
    have hpt := tryParseArr_parseTop p xs htp
    obtain ⟨r, hpv⟩ := parseTop_val p _ hpt
    have hframe := parseVal_arr_frame (2 * p.length + 4) p xs r zz hpv
    have hle : 2 * p.length + 4 ≤ 2 * (p ++ zz).length + 4 := by
      rw [List.length_append]; omega
    have h1 : parseVal (2 * (p ++ zz).length + 4) (p ++ zz) =
        some (JsonVal.arr xs, r ++ zz) := (parse_mono _ _ hle).1 _ _ hframe
    have hb : 10 * qs.length + 4 ≤ 2 * (serQs qs).length + 4 := by
      have := serQs_len qs; omega
    have h2 := rt_serQs qs [] (2 * (serQs qs).length + 4) hb
    rw [List.append_nil] at h2
    rw [hdec, h1] at h2
    have hnil : r ++ zz = [] := (Prod.mk.inj (Option.some.inj h2)).2
    cases zz with
    | nil => exact hz rfl
    | cons a b => simp at hnil

/-! ## Shape of the serialized payload -/

theorem serQs_head (qs : List RawQuestion) : ∃ b, serQs qs = '[' :: b := by
  cases qs with
  | nil => exact ⟨[']'], rfl⟩
  | cons r t => exact ⟨serRec r ++ serTail2 t, rfl⟩

theorem serRec_shape (r : RawQuestion) :
    ∃ C, serRec r = '{' :: (C ++ ['}']) := by
  refine ⟨serStr keyText ++ ':' :: serStr r.text ++ ',' :: serStr keyIntent ++
    ':' :: serStr r.intent ++ ',' :: serStr keyLanguage ++ ':' :: serStr r.language, ?_⟩
  simp [serRec]

theorem serTail2_ends (t : List RawQuestion) : ∃ B, serTail2 t = B ++ [']'] := by
  induction t with
  | nil => exact ⟨[], rfl⟩
  | cons r2 t2 ih =>
    obtain ⟨B2, hB2⟩ := ih
    exact ⟨',' :: serRec r2 ++ B2, by simp [serTail2, hB2]⟩

theorem serQs_split (qs : List RawQuestion) :
    ∃ B, serQs qs = '[' :: (B ++ [']']) := by
  cases qs with
  | nil => exact ⟨[], rfl⟩
  | cons r t =>
    obtain ⟨B2, hB2⟩ := serTail2_ends t
    exact ⟨serRec r ++ B2, by simp [serQs, hB2]⟩

theorem serBody_shape : ∀ (t : List RawQuestion) (r : RawQuestion),
    ∃ B, serRec r ++ serTail2 t = '{' :: (B ++ ['}', ']'])
  | [], r => by
    obtain ⟨C, hC⟩ := serRec_shape r
    exact ⟨C, by simp [serTail2, hC]⟩
  | r2 :: t2, r => by
    obtain ⟨B2, hB2⟩ := serBody_shape t2 r2
    obtain ⟨C, hC⟩ := serRec_shape r
    refine ⟨C ++ ['}'] ++ ',' :: '{' :: B2, ?_⟩
    simp [serTail2, hB2, hC]

theorem serQs_cons_shape (r : RawQuestion) (t : List RawQuestion) :
    ∃ B, serQs (r :: t) = '[' :: '{' :: (B ++ ['}', ']']) := by
  obtain ⟨B, hB⟩ := serBody_shape t r
  exact ⟨B, by simp [serQs, hB]⟩

/-! ## Strategy evaluation helpers -/

/-- A wrapped text is already trimmed: it opens and closes with a backtick. -/
theorem jsTrim_wrap (X : List Char) :
    jsTrim (fenceJson ++ '\n' :: (X ++ '\n' :: fence)) =
      fenceJson ++ '\n' :: (X ++ '\n' :: fence) := by
  have hW : fenceJson ++ '\n' :: (X ++ '\n' :: fence) =
      '`' :: (('`' :: '`' :: 'j' :: 's' :: 'o' :: 'n' :: '\n' ::
        (X ++ ['\n', '`', '`'])) ++ ['`']) := by
    simp [fenceJson, fence]
  rw [hW, jsTrim_cons_nonspace '`' _ (by decide),
    trimEnd_append_last _ '`' (by decide)]

theorem splitFirst_self : ∀ (n s : List Char), n ≠ [] →
    splitFirst n (n ++ s) = some ([], s)
  | [], _, hn => absurd rfl hn
  | c :: t, s, _ => by
    rw [List.cons_append]
    simp only [splitFirst]
    rw [if_pos (by rw [← List.cons_append]; exact isPre_self_append (c :: t) s)]
    simp only [List.length_cons, List.drop_succ_cons]
    rw [List.drop_left t s]

theorem splitFirst_cons_ne (n : List Char) (c : Char) (t : List Char)
    (hp : isPre n (c :: t) = false) :
    splitFirst n (c :: t) = (splitFirst n t).map fun p => (c :: p.1, p.2) := by
  simp only [splitFirst, hp]
  simp

/-- The array strategy fails on any text opening with a backtick. -/
theorem tryParseArr_backtick (t : List Char) : tryParseArr ('`' :: t) = none := by
  unfold tryParseArr parseTop
  rw [parseVal_backtick]

/-- The array strategy fails on any text opening with the letter j. -/
theorem tryParseArr_jay (t : List Char) : tryParseArr ('j' :: t) = none := by
  unfold tryParseArr parseTop
  rw [parseVal_jay]

/-- The serialized payload itself passes the array strategy. -/
theorem tryParseArr_ser (qs : List RawQuestion) :
    tryParseArr (serQs qs) = some (qs.map toJson) := by
  unfold tryParseArr
  rw [rt_parseTop]

/-- When the payload holds no triple backtick, no fence match can start inside
the newline-prefixed payload, not even one completing in the trailing fence. -/
theorem noPre_fence_boundary (X : List Char) (hA : splitFirst fence X = none) :
    ∀ a c b, '\n' :: X = a ++ c :: b →
      isPre fence (c :: (b ++ ('\n' :: fence))) = false := by
  intro a c b hab
  cases a with
  | nil =>
    obtain ⟨hc, _⟩ := List.cons.inj hab
    subst hc
    simp [fence, isPre]
  | cons a0 a1 =>
    rw [List.cons_append] at hab
    obtain ⟨_, hX⟩ := List.cons.inj hab
    by_cases hc : c = '`'
    · subst hc
      cases b with
      | nil => simp [fence, isPre]
      | cons d b2 =>
        cases b2 with
        | nil => simp [fence, isPre]
        | cons e b3 =>
          by_cases hd : d = '`'
          · by_cases he : e = '`'
            · subst hd; subst he
              have hnp := splitFirst_none_noPre fence X a1 ('`' :: '`' :: '`' :: b3)
                (by simp [fence]) hA hX
              rw [show isPre fence ('`' :: '`' :: '`' :: b3) = true by
                simp [fence, isPre]] at hnp
              exact absurd hnp (by simp)
            · simp [fence, isPre]
              exact fun _ h2 => he h2.symm
          · simp [fence, isPre]
            exact fun h1 => absurd h1.symm hd
    · simp [fence, isPre]
      exact fun h1 => absurd h1.symm hc

/-- Case A of the fenced-block strategy: the payload holds no triple backtick,
so the captured group is exactly the payload and the strategy succeeds. -/
theorem blockStrategy_wrap_noFence (qs : List RawQuestion)
    (hA : splitFirst fence (serQs qs) = none) :
    blockStrategy fenceJson (wrapJson (serQs qs)) = some (qs.map toJson) := by
  unfold blockStrategy blockInner wrapJson
  simp only [splitFirst_self fenceJson _ (by simp [fenceJson])]
  have h2 : splitFirst fence ('\n' :: (serQs qs ++ '\n' :: fence)) =
      some (('\n' :: serQs qs) ++ ['\n'], []) := by
    rw [show '\n' :: (serQs qs ++ '\n' :: fence) =
      ('\n' :: serQs qs) ++ ('\n' :: fence) by simp]
    rw [splitFirst_app_right fence ('\n' :: serQs qs) ('\n' :: fence)
      (noPre_fence_boundary (serQs qs) hA)]
    rw [show splitFirst fence ('\n' :: fence) = some (['\n'], []) from rfl]
    rfl
  simp only [h2]
  have h3 : jsTrim (('\n' :: serQs qs) ++ ['\n']) = serQs qs := by
    obtain ⟨B, hX⟩ := serQs_split qs
    rw [show ('\n' :: serQs qs) ++ ['\n'] = '\n' :: (serQs qs ++ ['\n']) by simp,
      jsTrim_cons_nl, hX, List.cons_append,
      jsTrim_cons_nonspace '[' _ (by decide)]
    rw [show (B ++ [']']) ++ ['\n'] = (B ++ [']']) ++ ['\n'] from rfl,
      trimEnd_append_nl, trimEnd_append_last B ']' (by decide)]
  rw [h3]
  obtain ⟨b, hXh⟩ := serQs_head qs
  rw [hXh]
  rw [show ('[' :: b).isEmpty = false from rfl, ← hXh]
  simp only [Bool.false_eq_true, if_false]
  exact tryParseArr_ser qs

/-- Case B of the fenced-block strategy: a triple backtick inside the payload
truncates the captured group to a strict prefix, which cannot parse. -/
theorem blockStrategy_wrap_fence (qs : List RawQuestion) (pre post : List Char)
    (hB : splitFirst fence (serQs qs) = some (pre, post)) :
    blockStrategy fenceJson (wrapJson (serQs qs)) = none := by
  have hdec := splitFirst_decomp fence (serQs qs) pre post hB
  obtain ⟨b, hXhead⟩ := serQs_head qs
  cases pre with
  | nil =>
    rw [hXhead] at hdec
    simp [fence] at hdec
  | cons p0 pre2 =>
    have hp0 : p0 = '[' := by
      rw [hXhead] at hdec
      simp only [List.cons_append, List.append_assoc] at hdec
      exact ((List.cons.inj hdec).1).symm
    subst hp0
    have h0 : splitFirst fence ('\n' :: serQs qs) = some ('\n' :: '[' :: pre2, post) := by
      rw [splitFirst_cons_ne fence '\n' _ (by simp [fence, isPre]), hB]
      rfl
    have h1 : splitFirst fence (('\n' :: serQs qs) ++ ('\n' :: fence)) =
        some ('\n' :: '[' :: pre2, post ++ '\n' :: fence) :=
      splitFirst_app_left fence _ _ _ _ h0
    unfold blockStrategy blockInner wrapJson
    simp only [splitFirst_self fenceJson _ (by simp [fenceJson])]
    rw [show '\n' :: (serQs qs ++ '\n' :: fence) =
      ('\n' :: serQs qs) ++ ('\n' :: fence) by simp]
    simp only [h1]
    rw [jsTrim_cons_nl, jsTrim_cons_nonspace '[' pre2 (by decide)]
    rw [show ('[' :: trimEnd pre2).isEmpty = false from rfl]
    simp only [Bool.false_eq_true, if_false]
    obtain ⟨w, hw⟩ := trimEnd_decomp pre2
    refine no_prefix_parse qs ('[' :: trimEnd pre2) (w ++ (fence ++ post)) ?_ ?_
    · rw [hdec]
      conv_lhs => rw [List.cons_append, hw]
      simp [List.append_assoc]
    · simp [fence]

/-- The plain fenced-block strategy always fails on a wrapped text: its
captured group starts with the letter j of the json language tag. -/
theorem blockStrategy_plain_wrap (X : List Char) :
    blockStrategy fence (wrapJson X) = none := by
  unfold blockStrategy blockInner wrapJson
  rw [show fenceJson ++ '\n' :: (X ++ '\n' :: fence) =
    fence ++ ('j' :: 's' :: 'o' :: 'n' :: '\n' :: (X ++ '\n' :: fence)) by
      simp [fenceJson, fence]]
  simp only [splitFirst_self fence _ (by simp [fence])]
  rw [splitFirst_cons_ne fence 'j' _ (by simp [fence, isPre])]
  cases hs : splitFirst fence ('s' :: 'o' :: 'n' :: '\n' :: (X ++ '\n' :: fence)) with
  | none => simp [hs]
  | some pq =>
    obtain ⟨p1, q1⟩ := pq
    simp only [hs, Option.map_some']
    rw [jsTrim_cons_nonspace 'j' p1 (by decide)]
    rw [show ('j' :: trimEnd p1).isEmpty = false from rfl]
    simp only [Bool.false_eq_true, if_false]
    exact tryParseArr_jay _

/-- The greedy array-of-objects scan on a wrapped nonempty payload recovers
exactly the payload: leftmost bracket-brace start, rightmost brace-bracket
end. -/
theorem arrayScan_wrap (r : RawQuestion) (t : List RawQuestion) :
    arrayScan (wrapJson (serQs (r :: t))) = some (serQs (r :: t)) := by
  obtain ⟨B, hB⟩ := serQs_cons_shape r t
  unfold arrayScan wrapJson
  have h1 : scanStart (fenceJson ++ '\n' :: (serQs (r :: t) ++ '\n' :: fence)) =
      some (serQs (r :: t) ++ '\n' :: fence) := by
    rw [show fenceJson ++ '\n' :: (serQs (r :: t) ++ '\n' :: fence) =
      '`' :: '`' :: '`' :: 'j' :: 's' :: 'o' :: 'n' :: '\n' ::
        (serQs (r :: t) ++ '\n' :: fence) by simp [fenceJson]]
    rw [hB]
    simp [scanStart, startsArrObj, dropSpaces, isSpace]
  have h2 : scanEnd ((serQs (r :: t) ++ '\n' :: fence).reverse) =
      some ((serQs (r :: t)).reverse) := by
    rw [hB]
    simp only [List.reverse_append, List.reverse_cons, List.append_assoc,
      List.cons_append, List.nil_append]
    simp [scanEnd, endsObjArr, dropSpaces, isSpace, fence]
  simp only [h1, h2, List.reverse_reverse]

/-- C7: for every array of question records, serializing it to JSON text,
wrapping that text in a json-tagged fenced code block, and running question
extraction on the wrapped text succeeds and returns exactly the parsed images
of the original records. -/
theorem extraction_roundtrip_fenced (qs : List RawQuestion) :
    parseQuestionResponse (wrapJson (serQs qs)) =
      { success := true, questions := qs.map toJson, error := none } := by
  have hWc : wrapJson (serQs qs) =
      '`' :: ('`' :: '`' :: 'j' :: 's' :: 'o' :: 'n' :: '\n' ::
        (serQs qs ++ '\n' :: fence)) := by
    simp [wrapJson, fenceJson]
  have hTrim : jsTrim (wrapJson (serQs qs)) = wrapJson (serQs qs) := by
    unfold wrapJson
    exact jsTrim_wrap _
  have hEmpty : (wrapJson (serQs qs)).isEmpty = false := by
    rw [hWc]
    rfl
  have hMock : isPre ['['] (wrapJson (serQs qs)) = false := by
    rw [hWc]
    rfl
  have hS1 : tryParseArr (wrapJson (serQs qs)) = none := by
    rw [hWc]
    exact tryParseArr_backtick _
  simp only [parseQuestionResponse, hEmpty, hTrim, hMock, hS1,
    Bool.false_eq_true, if_false, Bool.false_and]
  cases hA : splitFirst fence (serQs qs) with
  | none => simp only [blockStrategy_wrap_noFence qs hA]
  | some pq =>
    obtain ⟨pre, post⟩ := pq
    simp only [blockStrategy_wrap_fence qs pre post hA]
    simp only [blockStrategy_plain_wrap]
    cases qs with
    | nil =>
      rw [show splitFirst fence (serQs []) = none from rfl] at hA
      exact absurd hA (by simp)
    | cons r t =>
      simp [arrayScan_wrap r t, tryParseArr_ser]

/-- C10: whenever the trimmed input starts with an opening bracket and holds
the mock marker anywhere, both the question extractor and the scoring parser
return the fixed mock failure; in particular a serialized question array
whose content carries the marker is rejected although it parses as a valid
JSON array. -/
theorem mock_overrides_valid_json :
    (∀ s : List Char, s.isEmpty = false →
      isPre ['['] (jsTrim s) = true → hasSub (jsTrim s) mockMarker = true →
      parseQuestionResponse s =
        { success := false, questions := [], error := some mockResponseErr } ∧
      parseScoringResponse s =
        { success := false, breakdown := none, error := some mockResponseErr }) ∧
    (∀ qs : List RawQuestion, hasSub (serQs qs) mockMarker = true →
      tryParseArr (serQs qs) = some (qs.map toJson) ∧
      parseQuestionResponse (serQs qs) =
        { success := false, questions := [], error := some mockResponseErr } ∧
      parseScoringResponse (serQs qs) =
        { success := false, breakdown := none, error := some mockResponseErr }) := by
  refine ⟨fun s h0 h1 h2 => mock_branch s h0 h1 h2, fun qs hsub => ?_⟩
  obtain ⟨B, hX⟩ := serQs_split qs
  have htr : jsTrim (serQs qs) = serQs qs := by
    rw [hX, jsTrim_cons_nonspace '[' _ (by decide),
      trimEnd_append_last B ']' (by decide)]
  have h0 : (serQs qs).isEmpty = false := by rw [hX]; rfl
  have h1 : isPre ['['] (jsTrim (serQs qs)) = true := by rw [htr, hX]; rfl
  have h2 : hasSub (jsTrim (serQs qs)) mockMarker = true := by rw [htr]; exact hsub
  exact ⟨tryParseArr_ser qs, mock_branch (serQs qs) h0 h1 h2⟩

/-- Witness for `mock_overrides_valid_json`: a serialized one-question array
whose text field contains the marker is refused by the extractor. -/
theorem mock_overrides_valid_json_witness :
    parseQuestionResponse
        (serQs [⟨['[','M','O','C','K',']'], ['f','a','q'], ['e','n']⟩]) =
      { success := false, questions := [], error := some mockResponseErr } :=
  (mock_overrides_valid_json.2
    [⟨['[','M','O','C','K',']'], ['f','a','q'], ['e','n']⟩] (by decide)).2.1
